import Mathlib

/-!
Verification of the web-scraping query pipeline (`webscraping-colab-notebook.py`).

The development shallowly embeds the `WebExtractor` pipeline: the session
state (`current_url`, `current_content`, `preprocessed_content`), the
fetch/preprocess path, the query router `process_query`, the prompt builder,
the bracket-based JSON extraction from model completions, and the three
result formatters.  External collaborators are modelled as follows:

* `requests.get` + `raise_for_status` become an oracle `String → Option String`
  (`none` = the call raised; the exception propagates as `none` results).
* The generative model becomes an oracle `String → String`.
* `BeautifulSoup(...,'html.parser')` text extraction (tag stripping,
  `script`/`style` decomposition, entity decoding) is modelled by `getText`.
* `json.loads` / `json.dumps` are modelled by an executable JSON parser and
  printers over the `Json` type below.  Model scope notes: numeric literals
  are modelled as integers (floating point is out of scope), `NaN`/`Infinity`
  literals are not accepted, duplicate object keys are kept in order rather
  than collapsed, and lone `\u` surrogate escapes are rejected.

Python strings are modelled as `List Char` (Unicode code points), with
`String` wrappers where the original signatures take strings.
-/

/-! ## Python string primitives -/

/-- Model of `str.lower` on the ASCII range (the pipeline only compares
against the ASCII literals `"http"`, `"json"`, `"csv"`). -/
def lcChar (c : Char) : Char :=
  if 'A' ≤ c ∧ c ≤ 'Z' then Char.ofNat (c.toNat + 32) else c

/-- `str.lower`, pointwise over code points. -/
def pyLower (l : List Char) : List Char := l.map lcChar

/-- Characters stripped by Python `str.strip()` (Unicode whitespace). -/
def isPyWs (c : Char) : Bool :=
  c = ' ' || c = '\t' || c = '\n' || c = '\x0b' || c = '\x0c' || c = '\r' ||
  c = '\x1c' || c = '\x1d' || c = '\x1e' || c = '\x1f' || c = '\x85' ||
  c = '\xa0' || c = ' ' || (' ' ≤ c && c ≤ ' ') ||
  c = ' ' || c = ' ' || c = ' ' || c = ' ' || c = '　'

/-- Line boundaries recognised by Python `str.splitlines()`. -/
def isLineBoundary (c : Char) : Bool :=
  c = '\n' || c = '\r' || c = '\x0b' || c = '\x0c' ||
  c = '\x1c' || c = '\x1d' || c = '\x1e' || c = '\x85' ||
  c = ' ' || c = ' '

/-- Drop trailing Python whitespace. -/
def dropTrailWs (l : List Char) : List Char :=
  (l.reverse.dropWhile isPyWs).reverse

/-- Model of Python `str.strip()`. -/
def pyStrip (l : List Char) : List Char :=
  dropTrailWs (l.dropWhile isPyWs)

/-- Model of Python `str.splitlines()` (no trailing empty line; `\r\n`
counts as a single boundary). -/
def pySplitlinesGo : Nat → List Char → List (List Char)
  | 0, _ => []
  | _ + 1, [] => []
  | fuel + 1, x :: xs =>
    if isLineBoundary x then
      if x = '\r' ∧ xs.head? = some '\n' then [] :: pySplitlinesGo fuel xs.tail
      else [] :: pySplitlinesGo fuel xs
    else
      match pySplitlinesGo fuel xs with
      | [] => [[x]]
      | h :: t => (x :: h) :: t

/-- Model of Python `str.splitlines()` (each recursion step consumes at
least one character, so `input.length` fuel suffices). -/
def pySplitlines (l : List Char) : List (List Char) :=
  pySplitlinesGo l.length l

/-- Model of Python `str.split(sep)` for a one-character separator
(keeps empty pieces; `"".split(" ") = [""]`). -/
def splitOnChar (sep : Char) : List Char → List (List Char)
  | [] => [[]]
  | x :: xs =>
    if x = sep then [] :: splitOnChar sep xs
    else
      match splitOnChar sep xs with
      | [] => [[x]]
      | h :: t => (x :: h) :: t

/-- Model of `'\n'.join`. -/
def joinNl : List (List Char) → List Char
  | [] => []
  | [c] => c
  | c :: cs => c ++ '\n' :: joinNl cs

/-- Model of Python `needle in haystack` (substring membership). -/
def containsSub : List Char → List Char → Bool
  | [], needle => needle.isEmpty
  | x :: t, needle => needle.isPrefixOf (x :: t) || containsSub t needle

/-- Model of `str.find(ch)`: first index, `-1` if absent. -/
def pyFind (l : List Char) (c : Char) : Int :=
  match l.findIdx? (· = c) with
  | some i => (i : Int)
  | none => -1

/-- Model of `str.rfind(ch)`: last index, `-1` if absent. -/
def pyRfind (l : List Char) (c : Char) : Int :=
  match l.reverse.findIdx? (· = c) with
  | some i => ((l.length - 1 - i : Nat) : Int)
  | none => -1

/-! ## BeautifulSoup text-extraction model

`_preprocess_content` first parses the fetched markup with
`BeautifulSoup(content, 'html.parser')`, decomposes `script`/`style`
elements, and calls `get_text()`.  `getText` models this composition:
tags are stripped, the contents of `script`/`style` elements are dropped,
and character references (`&amp;` `&lt;` `&gt;` `&quot;` `&apos;` and
decimal `&#NNN;`) are decoded.  Simplifications (documented, unused by any
claim): comments and declarations end at the first `>`, only decimal
numeric character references are decoded, and semicolon-less named
references are left literal. -/

/-- After `</tag` (case-insensitively) was seen: skip to just past the
next `>`. -/
def afterGt (l : List Char) : List Char :=
  (l.dropWhile (fun c => c ≠ '>')).drop 1

/-- Drop raw element content up to and past the matching close tag
(CDATA-mode behaviour for `script`/`style`). -/
def dropUntilCloseTag (tag : List Char) : List Char → List Char
  | [] => []
  | x :: xs =>
    if x = '<' ∧ ('/' :: tag).isPrefixOf (pyLower (xs.take (tag.length + 1))) then
      afterGt xs
    else
      dropUntilCloseTag tag xs

/-- One step of the tag/entity scanner; fuel bounds recursion (each step
consumes at least one input character, so `input.length` fuel suffices). -/
def getTextGo : Nat → List Char → List Char
  | 0, _ => []
  | _ + 1, [] => []
  | fuel + 1, x :: xs =>
    if x = '<' then
      if (xs.head?.elim false fun c => c.isAlpha || c = '/' || c = '!' || c = '?') then
        let name := pyLower (xs.takeWhile Char.isAlpha)
        let afterTag := afterGt xs
        if name = "script".data then
          getTextGo fuel (dropUntilCloseTag "script".data afterTag)
        else if name = "style".data then
          getTextGo fuel (dropUntilCloseTag "style".data afterTag)
        else
          getTextGo fuel afterTag
      else
        x :: getTextGo fuel xs
    else if x = '&' then
      if "amp;".data.isPrefixOf xs then '&' :: getTextGo fuel (xs.drop 4)
      else if "lt;".data.isPrefixOf xs then '<' :: getTextGo fuel (xs.drop 3)
      else if "gt;".data.isPrefixOf xs then '>' :: getTextGo fuel (xs.drop 3)
      else if "quot;".data.isPrefixOf xs then '"' :: getTextGo fuel (xs.drop 5)
      else if "apos;".data.isPrefixOf xs then '\x27' :: getTextGo fuel (xs.drop 5)
      else if xs.head? = some '#' then
        let digs := (xs.drop 1).takeWhile Char.isDigit
        let val := digs.foldl (fun a c => 10 * a + (c.toNat - 48)) 0
        if digs ≠ [] ∧ (xs.drop (digs.length + 1)).head? = some ';' ∧ val.isValidChar then
          Char.ofNat val :: getTextGo fuel (xs.drop (digs.length + 2))
        else '&' :: getTextGo fuel xs
      else '&' :: getTextGo fuel xs
    else
      x :: getTextGo fuel xs

/-- `BeautifulSoup(content,'html.parser')` with `script`/`style` decomposed,
then `get_text()`. -/
def getText (l : List Char) : List Char := getTextGo l.length l

/-! ## The preprocessor -/

/-- The flattening stage of `_preprocess_content`: split into lines, strip
each, split each line on a single space, strip each phrase. -/
def flattenChunks (l : List Char) : List (List Char) :=
  ((pySplitlines l).map pyStrip).flatMap
    (fun line => (splitOnChar ' ' line).map pyStrip)

/-- `'\n'.join(chunk for chunk in chunks if chunk)`. -/
def flattenText (l : List Char) : List Char :=
  joinNl ((flattenChunks l).filter (fun c => ¬ c.isEmpty))

/-- `WebExtractor._preprocess_content`. -/
def _preprocess_content (s : String) : String :=
  ⟨flattenText (getText s.data)⟩

/-! ## JSON values (`json.loads` / `json.dumps` model) -/

/-- Parsed JSON data.  Objects are ordered key-value listings, matching the
insertion-ordered `dict` produced by `json.loads`. -/
inductive Json where
  | null : Json
  | bool (b : Bool) : Json
  | num (n : Int) : Json
  | str (s : String) : Json
  | arr (items : List Json) : Json
  | obj (members : List (String × Json)) : Json

/-- Hex digit characters, lowercase (as emitted by `json.dumps`). -/
def hexDigitChar (d : Nat) : Char :=
  if d < 10 then Char.ofNat (48 + d) else Char.ofNat (87 + d)

/-- The four hex digits of `n < 0x10000`, most significant first. -/
def hex4 (n : Nat) : List Char :=
  [hexDigitChar (n / 4096 % 16), hexDigitChar (n / 256 % 16),
   hexDigitChar (n / 16 % 16), hexDigitChar (n % 16)]

/-- `json.dumps` escaping of one character (`ensure_ascii=True` default:
everything outside `0x20`-`0x7e` becomes `\uXXXX`, astral characters become
a surrogate pair). -/
def encodeChar (c : Char) : List Char :=
  if c = '"' then ['\\', '"']
  else if c = '\\' then ['\\', '\\']
  else if c = '\n' then ['\\', 'n']
  else if c = '\r' then ['\\', 'r']
  else if c = '\t' then ['\\', 't']
  else if c = '\x08' then ['\\', 'b']
  else if c = '\x0c' then ['\\', 'f']
  else if c.toNat < 0x20 ∨ (0x7e < c.toNat ∧ c.toNat < 0x10000) then
    '\\' :: 'u' :: hex4 c.toNat
  else if 0x7e < c.toNat then
    let v := c.toNat - 0x10000
    '\\' :: 'u' :: hex4 (0xd800 + v / 0x400) ++ '\\' :: 'u' :: hex4 (0xdc00 + v % 0x400)
  else [c]

/-- `json.dumps` escaping of a string body. -/
def encodeList : List Char → List Char
  | [] => []
  | c :: cs => encodeChar c ++ encodeList cs

/-- Little-endian decimal digits (fuel-structural; `n` fuel suffices since
`n / 10 < n` for positive `n`). -/
def natDigitsGo : Nat → Nat → List Nat
  | 0, _ => []
  | _ + 1, 0 => []
  | fuel + 1, n => n % 10 :: natDigitsGo fuel (n / 10)

/-- Little-endian decimal digits of `n` (empty for `0`). -/
def natDigits (n : Nat) : List Nat := natDigitsGo n n

/-- Decimal digits of a natural number (the digits of `str(n)`). -/
def natChars (m : Nat) : List Char :=
  if m = 0 then ['0'] else (natDigits m).reverse.map Nat.digitChar

/-- `str(n)` for an integer. -/
def intChars (n : Int) : List Char :=
  if n < 0 then '-' :: natChars n.natAbs else natChars n.toNat

mutual

/-- `json.dumps(j)` with the default separators `", "` and `": "`. -/
def dumpsJson : Json → List Char
  | .null => "null".data
  | .bool true => "true".data
  | .bool false => "false".data
  | .num n => intChars n
  | .str s => '"' :: encodeList s.data ++ ['"']
  | .arr items => '[' :: dumpsItems items ++ [']']
  | .obj ms => '{' :: dumpsMembers ms ++ ['}']
  termination_by structural j => j

/-- Array elements, separated by `", "`. -/
def dumpsItems : List Json → List Char
  | [] => []
  | j :: js =>
    dumpsJson j ++ (if js.isEmpty then [] else [',', ' ']) ++ dumpsItems js
  termination_by structural l => l

/-- Object members, `"key": value` separated by `", "`. -/
def dumpsMembers : List (String × Json) → List Char
  | [] => []
  | (k, v) :: ms =>
    '"' :: encodeList k.data ++ '"' :: ':' :: ' ' :: dumpsJson v ++
      (if ms.isEmpty then [] else [',', ' ']) ++ dumpsMembers ms
  termination_by structural l => l

end

/-- `'\n'` followed by the two-space indentation of `json.dumps(.., indent=2)`
at nesting level `lvl`. -/
def indentChars (lvl : Nat) : List Char :=
  '\n' :: List.replicate (2 * lvl) ' '

mutual

/-- `json.dumps(j, indent=2)` at nesting level `lvl` (item separator `","`
plus newline-indent, key separator `": "`). -/
def dumpsInd : Nat → Json → List Char
  | _, .null => "null".data
  | _, .bool true => "true".data
  | _, .bool false => "false".data
  | _, .num n => intChars n
  | _, .str s => '"' :: encodeList s.data ++ ['"']
  | _, .arr [] => ['[', ']']
  | lvl, .arr (j :: js) =>
    '[' :: indentChars (lvl + 1) ++ dumpsInd (lvl + 1) j ++
      dumpsIndItems (lvl + 1) js ++ indentChars lvl ++ [']']
  | _, .obj [] => ['{', '}']
  | lvl, .obj (m :: ms) =>
    '{' :: indentChars (lvl + 1) ++
      ('"' :: encodeList m.1.data ++ '"' :: ':' :: ' ' :: dumpsInd (lvl + 1) m.2) ++
      dumpsIndMembers (lvl + 1) ms ++ indentChars lvl ++ ['}']
  termination_by structural _ j => j

/-- Remaining indented array elements, each preceded by `","` and indent. -/
def dumpsIndItems : Nat → List Json → List Char
  | _, [] => []
  | lvl, j :: js =>
    ',' :: indentChars lvl ++ dumpsInd lvl j ++ dumpsIndItems lvl js
  termination_by structural _ l => l

/-- Remaining indented object members. -/
def dumpsIndMembers : Nat → List (String × Json) → List Char
  | _, [] => []
  | lvl, m :: ms =>
    ',' :: indentChars lvl ++
      ('"' :: encodeList m.1.data ++ '"' :: ':' :: ' ' :: dumpsInd lvl m.2) ++
      dumpsIndMembers lvl ms
  termination_by structural _ l => l

end

/-- `json.dumps(j)`. -/
def Json.dumps (j : Json) : String := ⟨dumpsJson j⟩

/-- `json.dumps(j, indent=2)`. -/
def Json.dumpsIndent (j : Json) : String := ⟨dumpsInd 0 j⟩

/-! ## The JSON parser (`json.loads` model) -/

/-- Value of one hex digit (both cases accepted, as in `json.loads`). -/
def hexVal (c : Char) : Option Nat :=
  if '0' ≤ c ∧ c ≤ '9' then some (c.toNat - 48)
  else if 'a' ≤ c ∧ c ≤ 'f' then some (c.toNat - 87)
  else if 'A' ≤ c ∧ c ≤ 'F' then some (c.toNat - 55)
  else none

/-- Value of a four-hex-digit escape. -/
def hexVal4 (h1 h2 h3 h4 : Char) : Option Nat :=
  match hexVal h1, hexVal h2, hexVal h3, hexVal h4 with
  | some a, some b, some c, some d => some (4096 * a + 256 * b + 16 * c + d)
  | _, _, _, _ => none

/-- Decode one simple backslash escape character. -/
def escChar (e : Char) : Option Char :=
  if e = '"' then some '"'
  else if e = '\\' then some '\\'
  else if e = '/' then some '/'
  else if e = 'n' then some '\n'
  else if e = 'r' then some '\r'
  else if e = 't' then some '\t'
  else if e = 'b' then some '\x08'
  else if e = 'f' then some '\x0c'
  else none

/-- Read four hex digits. -/
def hex4At : List Char → Option (Nat × List Char)
  | h1 :: h2 :: h3 :: h4 :: rest => (hexVal4 h1 h2 h3 h4).map fun n => (n, rest)
  | _ => none

/-- Decode the body of a `\uXXXX` escape, recombining a surrogate pair with
a following `\uXXXX` low surrogate (a lone surrogate escape is rejected, as
Lean characters cannot denote surrogates). -/
def decodeUEscape (l : List Char) : Option (Char × List Char) :=
  match hex4At l with
  | none => none
  | some (n, rest) =>
    if 0xd800 ≤ n ∧ n < 0xdc00 then
      if rest.take 2 = ['\\', 'u'] then
        match hex4At (rest.drop 2) with
        | some (m, rest3) =>
          if 0xdc00 ≤ m ∧ m < 0xe000 then
            some (Char.ofNat (0x10000 + (n - 0xd800) * 0x400 + (m - 0xdc00)), rest3)
          else none
        | none => none
      else none
    else if 0xdc00 ≤ n ∧ n < 0xe000 then none
    else some (Char.ofNat n, rest)

/-- JSON string body scanner, after the opening quote: returns the decoded
characters and the input following the closing quote.  Escapes follow
`json.loads` (strict mode: raw control characters are rejected).  Fuel
decreases once per decoded character while at least one input character is
consumed, so `input.length` fuel suffices. -/
def parseStrGo : Nat → List Char → Option (List Char × List Char)
  | 0, _ => none
  | _ + 1, [] => none
  | fuel + 1, c :: rest =>
    if c = '"' then some ([], rest)
    else if c = '\\' then
      match rest with
      | [] => none
      | e :: rest2 =>
        if e = 'u' then
          match decodeUEscape rest2 with
          | some (ch, rest3) => (parseStrGo fuel rest3).map fun p => (ch :: p.1, p.2)
          | none => none
        else
          match escChar e with
          | some ch => (parseStrGo fuel rest2).map fun p => (ch :: p.1, p.2)
          | none => none
    else if c.toNat < 0x20 then none
    else (parseStrGo fuel rest).map fun p => (c :: p.1, p.2)

/-- JSON string body parser (`parseStrGo` at adequate fuel). -/
def parseStrChars (l : List Char) : Option (List Char × List Char) :=
  parseStrGo l.length l

/-- Digit run to a natural number, most significant first. -/
def digitsToNat (ds : List Char) : Nat :=
  ds.foldl (fun a c => 10 * a + (c.toNat - 48)) 0

/-- Unsigned JSON integer literal: a nonempty digit run with no redundant
leading zero (as in `json.loads`; fractions and exponents are outside the
integer model). -/
def parseNatNum (l : List Char) : Option (Nat × List Char) :=
  let ds := l.takeWhile Char.isDigit
  if ds.isEmpty then none
  else if ds.head? = some '0' ∧ 1 < ds.length then none
  else some (digitsToNat ds, l.drop ds.length)

/-- Signed JSON integer literal. -/
def parseNum (l : List Char) : Option (Int × List Char) :=
  if l.head? = some '-' then (parseNatNum l.tail).map fun p => (-(p.1 : Int), p.2)
  else (parseNatNum l).map fun p => ((p.1 : Int), p.2)

/-- JSON insignificant whitespace. -/
def isJsonWs (c : Char) : Bool :=
  c = ' ' || c = '\t' || c = '\n' || c = '\r'

/-- Skip insignificant whitespace. -/
def skipWs (l : List Char) : List Char := l.dropWhile isJsonWs

mutual

/-- JSON value parser.  Fuel decreases on every recursive step; since each
step first consumes at least one character, `input.length + 1` fuel never
runs out on inputs it accepts. -/
def parseVal : Nat → List Char → Option (Json × List Char)
  | 0, _ => none
  | fuel + 1, l0 =>
    match skipWs l0 with
    | [] => none
    | c :: r =>
      if c = 'n' then
        if r.take 3 = ['u', 'l', 'l'] then some (.null, r.drop 3) else none
      else if c = 't' then
        if r.take 3 = ['r', 'u', 'e'] then some (.bool true, r.drop 3) else none
      else if c = 'f' then
        if r.take 4 = ['a', 'l', 's', 'e'] then some (.bool false, r.drop 4) else none
      else if c = '"' then
        (parseStrChars r).map fun p => (.str ⟨p.1⟩, p.2)
      else if c = '[' then
        let r1 := skipWs r
        if r1.head? = some ']' then some (.arr [], r1.tail)
        else
          (parseVal fuel r).bind fun p =>
            (parseArrTail fuel p.2).map fun q => (.arr (p.1 :: q.1), q.2)
      else if c = '{' then
        let r1 := skipWs r
        if r1.head? = some '}' then some (.obj [], r1.tail)
        else
          (parseMember fuel r).bind fun p =>
            (parseObjTail fuel p.2).map fun q => (.obj (p.1 :: q.1), q.2)
      else
        (parseNum (c :: r)).map fun p => (.num p.1, p.2)

/-- After one array element: `]` ends the array, `,` continues it. -/
def parseArrTail : Nat → List Char → Option (List Json × List Char)
  | 0, _ => none
  | fuel + 1, l0 =>
    match skipWs l0 with
    | [] => none
    | c :: r =>
      if c = ']' then some ([], r)
      else if c = ',' then
        (parseVal fuel r).bind fun p =>
          (parseArrTail fuel p.2).map fun q => (p.1 :: q.1, q.2)
      else none

/-- One `"key": value` member. -/
def parseMember : Nat → List Char → Option ((String × Json) × List Char)
  | 0, _ => none
  | fuel + 1, l0 =>
    match skipWs l0 with
    | [] => none
    | c :: r =>
      if c = '"' then
        (parseStrChars r).bind fun p =>
          let r1 := skipWs p.2
          if r1.head? = some ':' then
            (parseVal fuel r1.tail).map fun q => ((⟨p.1⟩, q.1), q.2)
          else none
      else none

/-- After one member: `}` ends the object, `,` continues it. -/
def parseObjTail : Nat → List Char → Option (List (String × Json) × List Char)
  | 0, _ => none
  | fuel + 1, l0 =>
    match skipWs l0 with
    | [] => none
    | c :: r =>
      if c = '}' then some ([], r)
      else if c = ',' then
        (parseMember fuel r).bind fun p =>
          (parseObjTail fuel p.2).map fun q => (p.1 :: q.1, q.2)
      else none

end

/-- `json.loads`: parse one value and require only whitespace after it. -/
def Json.parse (s : String) : Option Json :=
  match parseVal (s.data.length + 1) s.data with
  | some (j, rest) => if skipWs rest = [] then some j else none
  | none => none

/-! ## Rendering helpers for the formatters -/

/-- Join pieces with a separator (`sep.join` in Python). -/
def joinSep (sep : List Char) : List (List Char) → List Char
  | [] => []
  | [c] => c
  | c :: cs => c ++ sep ++ joinSep sep cs

mutual

/-- Model of Python `repr` on parsed JSON data (`f"{v}"` falls back to this
for containers; string escaping inside `repr` is not modelled, no claim
depends on it). -/
def pyRepr : Json → List Char
  | .null => "None".data
  | .bool true => "True".data
  | .bool false => "False".data
  | .num n => intChars n
  | .str s => '\x27' :: s.data ++ ['\x27']
  | .arr items => '[' :: pyReprItems items ++ [']']
  | .obj ms => '{' :: pyReprMembers ms ++ ['}']
  termination_by structural j => j

/-- `repr` of list elements. -/
def pyReprItems : List Json → List Char
  | [] => []
  | j :: js => pyRepr j ++ (if js.isEmpty then [] else [',', ' ']) ++ pyReprItems js
  termination_by structural l => l

/-- `repr` of dict entries. -/
def pyReprMembers : List (String × Json) → List Char
  | [] => []
  | (k, v) :: ms =>
    '\x27' :: k.data ++ '\x27' :: ':' :: ' ' :: pyRepr v ++
      (if ms.isEmpty then [] else [',', ' ']) ++ pyReprMembers ms
  termination_by structural l => l

end

/-- Model of Python `str(v)` / `f"{v}"` on parsed JSON data. -/
def pyStr : Json → List Char
  | .str s => s.data
  | j => pyRepr j

/-- Python truthiness of parsed JSON data (`if not parsed_data`). -/
def jsonFalsy : Json → Bool
  | .null => true
  | .bool b => !b
  | .num n => n = 0
  | .str s => s.isEmpty
  | .arr items => items.isEmpty
  | .obj ms => ms.isEmpty

/-- Whether a parsed value is an object (a Python `dict`). -/
def isObjVal : Json → Bool
  | .obj _ => true
  | _ => false

/-- Scalar JSON values (not arrays or objects). -/
def isScalar : Json → Bool
  | .arr _ => false
  | .obj _ => false
  | _ => true

/-- The shape of a structured result: an array of objects whose values are
scalars (ordered records of string keys and scalar values). -/
def isStructured (rs : List Json) : Bool :=
  rs.all fun r =>
    match r with
    | .obj ms => ms.all fun m => isScalar m.2
    | _ => false

/-- Recursion budget used by the parser round-trip lemmas: enough fuel to
parse one printed record list (each record costs its member count plus a
constant, see the lemmas below). -/
def parseFuelBound : List Json → Nat
  | [] => 1
  | .obj ms :: rs => 1 + max (ms.length + 2) (parseFuelBound rs)
  | _ :: rs => 1 + max 2 (parseFuelBound rs)

/-- Columns of `pandas.DataFrame(rows)`: keys in order of first appearance
across the rows. -/
def collectCols (rows : List Json) : List String :=
  rows.foldl
    (fun acc r =>
      match r with
      | .obj ms => ms.foldl (fun a m => if a.contains m.1 then a else a ++ [m.1]) acc
      | _ => acc)
    []

/-- CSV field quoting (quote when the cell holds a comma, quote, or line
break; double embedded quotes). -/
def csvCell (s : List Char) : List Char :=
  if s.any (fun c => c = ',' || c = '"' || c = '\n' || c = '\r') then
    '"' :: (s.flatMap fun c => if c = '"' then ['"', '"'] else [c]) ++ ['"']
  else s

/-- One CSV cell of a record: missing keys and `null` render as empty
(`NaN` in the frame). -/
def csvField (ms : List (String × Json)) (k : String) : List Char :=
  match ms.lookup k with
  | none => []
  | some .null => []
  | some v => csvCell (pyStr v)

/-- Model of `pandas.DataFrame(rows).to_csv(index=False)` for a list of
flat records: a header row of column names, then one line per record,
each line `\n`-terminated. -/
def toCsv (rows : List Json) : List Char :=
  let cols := collectCols rows
  joinSep [','] (cols.map fun k => csvCell k.data) ++ '\n' ::
    (rows.flatMap fun r =>
      (match r with
       | .obj ms => joinSep [','] (cols.map fun k => csvField ms k)
       | _ => []) ++ ['\n'])

/-! ## The `WebExtractor` pipeline -/

/-- The three session fields of `WebExtractor` (all `None` initially). -/
structure WebExtractor where
  current_url : Option String
  current_content : Option String
  preprocessed_content : Option String

/-- Python truthiness of an `Optional[str]` field (`not x` holds for both
`None` and the empty string). -/
def optStrFalsy : Option String → Bool
  | none => true
  | some s => s.isEmpty

/-- The fixed no-page-yet message. -/
def urlFirstMsg : String :=
  "Please provide a URL first before asking for information."

/-- The fixed no-bracket-pair message of `_extract_info`. -/
def noExtractMsg : String :=
  "Error: Could not extract JSON data from the model\x27s response."

/-- The parse-failure diagnostic: first 500 characters of the offending
input after a fixed prefix. -/
def diagOf (data : String) : String :=
  "Error: Invalid JSON data. Raw data: " ++ ⟨data.data.take 500⟩ ++ "..."

/-- The fetch acknowledgment naming the URL. -/
def ackMsg (url : String) : String :=
  "I\x27ve fetched and preprocessed the content from " ++ url ++
    ". What would you like to know about it?"

/-- `WebExtractor.fetch_url`.  `ffetch` is the oracle for
`requests.get(url).text` after `raise_for_status` (`none` = the request or
the status check raised).  The result pairs the post-call state with the
returned string, `none` standing for a propagated exception: note that
`self.current_url` is assigned before the network call, so it is updated
even when the fetch raises. -/
def fetch_url (ffetch : String → Option String) (st : WebExtractor)
    (url : String) : WebExtractor × Option String :=
  let st1 := { st with current_url := some url }
  match ffetch url with
  | none => (st1, none)
  | some body =>
    let st2 := { st1 with current_content := some body }
    let st3 := { st2 with preprocessed_content := some (_preprocess_content body) }
    (st3, some (ackMsg url))

/-- The fixed-template prompt of `_extract_info`: static instruction, the
first 500 characters of the preprocessed content, and the literal query
(the embedded eight-space runs are the indentation inside the Python
triple-quoted f-string). -/
def promptOf (p query : String) : String :=
  "Based on the following webpage content and the user\x27s request, extract the relevant information.\n        Always present the data as a JSON array of objects.\n        Webpage content: " ++
    ⟨p.data.take 500⟩ ++ "...\n        Human: " ++ query ++ "\n        AI:"

/-- `WebExtractor._format_as_json`. -/
def _format_as_json (data : String) : String :=
  match Json.parse data with
  | some parsed => "```json\n" ++ Json.dumpsIndent parsed ++ "\n```"
  | none => diagOf data

/-- `WebExtractor._format_as_csv` (`none` = an uncaught exception from
`pandas.DataFrame` on a shape it rejects; only `JSONDecodeError` is
caught by the source). -/
def _format_as_csv (data : String) : Option String :=
  match Json.parse data with
  | some parsed =>
    if jsonFalsy parsed then some "No data to convert to CSV."
    else
      match parsed with
      | .arr items =>
        if items.all isObjVal then some ("```csv\n" ++ ⟨toCsv items⟩ ++ "\n```")
        else none
      | _ => none
  | none => some (diagOf data)

/-- `WebExtractor._format_as_text` (`none` = an uncaught `AttributeError`
from `item.items()` on non-dict items; on `JSONDecodeError` the raw input
is returned unchanged). -/
def _format_as_text (data : String) : Option String :=
  match Json.parse data with
  | some parsed =>
    match parsed with
    | .arr items =>
      if items.all isObjVal then
        some ⟨joinNl (items.map fun it =>
          match it with
          | .obj ms => joinSep [',', ' '] (ms.map fun m => m.1.data ++ ':' :: ' ' :: pyStr m.2)
          | _ => [])⟩
      else none
    | _ => none
  | none => some data

/-- `WebExtractor._format_result`: branch on `"json"` / `"csv"` occurring in
the lowercased query. -/
def _format_result (extracted_data query : String) : Option String :=
  if containsSub (pyLower query.data) "json".data then
    some (_format_as_json extracted_data)
  else if containsSub (pyLower query.data) "csv".data then
    _format_as_csv extracted_data
  else
    _format_as_text extracted_data

/-- The response-processing tail of `_extract_info`: bracket search, slice,
parse, format.  `response` is the model completion. -/
def processResponse (response query : String) : Option String :=
  let r := response.data
  let json_start : Int := pyFind r '['
  let json_end : Int := pyRfind r ']' + 1
  if json_start ≠ -1 ∧ json_end ≠ -1 then
    let json_str : String := ⟨(r.take json_end.toNat).drop json_start.toNat⟩
    match Json.parse json_str with
    | some extracted_data => _format_result (Json.dumps extracted_data) query
    | none => some (diagOf json_str)
  else some noExtractMsg

/-- `WebExtractor._extract_info` with the generation model as an oracle. -/
def _extract_info (model : String → String) (st : WebExtractor)
    (query : String) : Option String :=
  if optStrFalsy st.preprocessed_content then some urlFirstMsg
  else
    let p := st.preprocessed_content.getD ""
    processResponse (model (promptOf p query)) query

/-- `WebExtractor.process_query`: the query router. -/
def process_query (ffetch : String → Option String) (model : String → String)
    (st : WebExtractor) (user_input : String) : WebExtractor × Option String :=
  if "http".data.isPrefixOf (pyLower user_input.data) then
    fetch_url ffetch st user_input
  else if optStrFalsy st.current_content then
    (st, some urlFirstMsg)
  else
    (st, _extract_info model st user_input)

/-! ## Number round-trip lemmas -/

theorem natDigitsGo_eq (fuel : Nat) : ∀ n, n ≤ fuel → natDigitsGo fuel n = Nat.digits 10 n := by
  induction fuel with
  | zero =>
    intro n h
    interval_cases n
    simp [natDigitsGo]
  | succ fuel ih =>
    intro n h
    match n with
    | 0 => simp [natDigitsGo]
    | m + 1 =>
      have hlt : (m + 1) / 10 < m + 1 := Nat.div_lt_self (Nat.succ_pos m) (by norm_num)
      calc natDigitsGo (fuel + 1) (m + 1)
          = (m + 1) % 10 :: natDigitsGo fuel ((m + 1) / 10) := rfl
        _ = (m + 1) % 10 :: Nat.digits 10 ((m + 1) / 10) := by rw [ih _ (by omega)]
        _ = Nat.digits 10 (m + 1) := (Nat.digits_def' (by norm_num) (Nat.succ_pos m)).symm

theorem natDigits_eq (n : Nat) : natDigits n = Nat.digits 10 n :=
  natDigitsGo_eq n n le_rfl

/-- Convenient unfolding of `natChars` for nonzero `m`. -/
theorem natChars_of_ne_zero {m : Nat} (hm : m ≠ 0) :
    natChars m = ((Nat.digits 10 m).reverse).map Nat.digitChar := by
  unfold natChars
  rw [if_neg hm, natDigits_eq]

theorem digitChar_isDigit {d : Nat} (h : d < 10) : (Nat.digitChar d).isDigit = true := by
  interval_cases d <;> decide

theorem digitChar_toNat {d : Nat} (h : d < 10) : (Nat.digitChar d).toNat - 48 = d := by
  interval_cases d <;> decide

theorem digitChar_ne_zeroChar {d : Nat} (h : d < 10) (h0 : d ≠ 0) :
    Nat.digitChar d ≠ '0' := by
  interval_cases d <;> simp_all <;> decide

theorem natChars_all_digits (m : Nat) : ∀ c ∈ natChars m, c.isDigit = true := by
  intro c hc
  unfold natChars at hc
  split at hc
  · simp at hc
    simp [hc]
  · simp only [List.mem_map, List.mem_reverse] at hc
    obtain ⟨d, hd, rfl⟩ := hc
    exact digitChar_isDigit (Nat.digits_lt_base (by omega) (natDigits_eq m ▸ hd))

theorem natChars_ne_nil (m : Nat) : natChars m ≠ [] := by
  unfold natChars
  split
  · simp
  · have hne : Nat.digits 10 m ≠ [] := Nat.digits_ne_nil_iff_ne_zero.mpr (by assumption)
    simp [natDigits_eq, hne]

theorem digitsToNat_aux (bed : List Nat) (acc : Nat) (h : ∀ d ∈ bed, d < 10) :
    (bed.map Nat.digitChar).foldl (fun a c => 10 * a + (c.toNat - 48)) acc
      = acc * 10 ^ bed.length + Nat.ofDigits 10 bed.reverse := by
  induction bed generalizing acc with
  | nil => simp
  | cons d rest ih =>
    have hd : d < 10 := h d (by simp)
    simp only [List.map_cons, List.foldl_cons, digitChar_toNat hd, List.reverse_cons]
    rw [ih _ (fun x hx => h x (List.mem_cons_of_mem _ hx))]
    rw [Nat.ofDigits_append]
    simp [Nat.ofDigits, pow_succ]
    ring

theorem digitsToNat_natChars (m : Nat) : digitsToNat (natChars m) = m := by
  by_cases hm : m = 0
  · subst hm
    decide
  · rw [natChars_of_ne_zero hm]
    unfold digitsToNat
    have h := digitsToNat_aux (Nat.digits 10 m).reverse 0
      (fun d hd => Nat.digits_lt_base (by omega) (List.mem_reverse.mp hd))
    rw [h]
    simp [Nat.ofDigits_digits]

theorem natChars_head_ne_zero {m : Nat} (hm : m ≠ 0) :
    ∀ c, (natChars m).head? = some c → c ≠ '0' ∨ (natChars m).length = 1 := by
  intro c hc
  rw [natChars_of_ne_zero hm] at hc
  by_cases hlen : (Nat.digits 10 m).length = 1
  · right
    rw [natChars_of_ne_zero hm]
    simp [hlen]
  · left
    have hne : Nat.digits 10 m ≠ [] := Nat.digits_ne_nil_iff_ne_zero.mpr hm
    rw [List.head?_map, List.head?_reverse] at hc
    have hlast : (Nat.digits 10 m).getLast hne ≠ 0 := Nat.getLast_digit_ne_zero 10 hm
    rw [List.getLast?_eq_getLast _ hne] at hc
    simp only [Option.map_some'] at hc
    have hlt : (Nat.digits 10 m).getLast hne < 10 :=
      Nat.digits_lt_base (by omega) (List.getLast_mem hne)
    obtain rfl : c = Nat.digitChar ((Nat.digits 10 m).getLast hne) := by
      injection hc.symm
    exact digitChar_ne_zeroChar hlt hlast

/-- `takeWhile` over an append whose left part satisfies `p` throughout and
whose right part starts by failing `p`. -/
theorem takeWhile_append_all {α : Type} {p : α → Bool} {a b : List α}
    (ha : ∀ x ∈ a, p x = true) (hb : ∀ c, b.head? = some c → p c = false) :
    (a ++ b).takeWhile p = a := by
  induction a with
  | nil =>
    simp only [List.nil_append]
    cases b with
    | nil => rfl
    | cons c cs => simp [List.takeWhile_cons, hb c rfl]
  | cons x xs ih =>
    simp only [List.cons_append, List.takeWhile_cons, ha x (by simp), if_true]
    rw [ih (fun y hy => ha y (List.mem_cons_of_mem _ hy))]

theorem parseNatNum_natChars (m : Nat) (rest : List Char)
    (hrest : ∀ c, rest.head? = some c → c.isDigit = false) :
    parseNatNum (natChars m ++ rest) = some (m, rest) := by
  have hds : (natChars m ++ rest).takeWhile Char.isDigit = natChars m :=
    takeWhile_append_all (natChars_all_digits m) hrest
  have hfalse : ¬((natChars m).head? = some '0' ∧ 1 < (natChars m).length) := by
    rintro ⟨h0, hlen⟩
    by_cases hm : m = 0
    · subst hm
      simp [natChars] at hlen
    · rcases natChars_head_ne_zero hm '0' h0 with h | h
      · exact h rfl
      · omega
  have hemp : (natChars m).isEmpty = false := by
    cases h : natChars m with
    | nil => exact absurd h (natChars_ne_nil m)
    | cons c cs => rfl
  simp only [parseNatNum, hds, hemp, Bool.false_eq_true, if_false, if_neg hfalse,
    digitsToNat_natChars, List.drop_left]

theorem isDigit_ne_dash {c : Char} (h : c.isDigit = true) : c ≠ '-' := by
  intro hc
  subst hc
  simp [Char.isDigit] at h

theorem parseNum_intChars (n : Int) (rest : List Char)
    (hrest : ∀ c, rest.head? = some c → c.isDigit = false) :
    parseNum (intChars n ++ rest) = some (n, rest) := by
  unfold parseNum intChars
  by_cases hn : n < 0
  · rw [if_pos hn]
    simp only [List.cons_append, List.head?_cons, List.tail_cons, if_true,
      parseNatNum_natChars _ _ hrest, Option.map_some']
    have : -((n.natAbs : Nat) : Int) = n := by omega
    rw [this]
  · rw [if_neg hn]
    obtain ⟨c, cs, hcons⟩ := List.exists_cons_of_ne_nil (natChars_ne_nil n.toNat)
    have hcdig : c.isDigit = true := natChars_all_digits n.toNat c (by rw [hcons]; simp)
    have hne : ¬((natChars n.toNat ++ rest).head? = some '-') := by
      rw [hcons]
      simp only [List.cons_append, List.head?_cons, Option.some.injEq]
      intro h
      exact isDigit_ne_dash hcdig h
    rw [if_neg hne, parseNatNum_natChars _ _ hrest]
    simp only [Option.map_some']
    have : ((n.toNat : Nat) : Int) = n := by omega
    rw [this]

/-! ## String-escape round-trip lemmas -/

theorem char_valid_toNat (c : Char) :
    c.toNat < 0xd800 ∨ (0xdfff < c.toNat ∧ c.toNat < 0x110000) := by
  rcases c with ⟨v, hv⟩
  rcases hv with h | ⟨h1, h2⟩
  · exact Or.inl h
  · exact Or.inr ⟨h1, h2⟩

theorem hexVal_hexDigitChar {d : Nat} (h : d < 16) :
    hexVal (hexDigitChar d) = some d := by
  interval_cases d <;> decide

theorem hexVal4_roundtrip {n : Nat} (h : n < 65536) :
    hexVal4 (hexDigitChar (n / 4096 % 16)) (hexDigitChar (n / 256 % 16))
      (hexDigitChar (n / 16 % 16)) (hexDigitChar (n % 16)) = some n := by
  unfold hexVal4
  rw [hexVal_hexDigitChar (Nat.mod_lt _ (by norm_num)),
      hexVal_hexDigitChar (Nat.mod_lt _ (by norm_num)),
      hexVal_hexDigitChar (Nat.mod_lt _ (by norm_num)),
      hexVal_hexDigitChar (Nat.mod_lt _ (by norm_num))]
  simp only [Option.some.injEq]
  omega


theorem hex4At_hex4 {n : Nat} (h : n < 65536) (rest : List Char) :
    hex4At (hex4 n ++ rest) = some (n, rest) := by
  show hex4At (hexDigitChar (n / 4096 % 16) :: hexDigitChar (n / 256 % 16) ::
    hexDigitChar (n / 16 % 16) :: hexDigitChar (n % 16) :: rest) = some (n, rest)
  rw [hex4At, hexVal4_roundtrip h]
  rfl

theorem decodeUEscape_bmp {n : Nat} (hlt : n < 65536)
    (hns : ¬(0xd800 ≤ n ∧ n < 0xe000)) (rest : List Char) :
    decodeUEscape (hex4 n ++ rest) = some (Char.ofNat n, rest) := by
  rw [decodeUEscape, hex4At_hex4 hlt]
  dsimp only
  rw [if_neg (by omega), if_neg (by omega)]

theorem decodeUEscape_astral {n : Nat} (hge : 0x10000 ≤ n) (hub : n < 0x110000)
    (rest : List Char) :
    decodeUEscape (hex4 (0xd800 + (n - 0x10000) / 0x400) ++
      ('\\' :: 'u' :: (hex4 (0xdc00 + (n - 0x10000) % 0x400) ++ rest))) =
      some (Char.ofNat n, rest) := by
  have hmod : (n - 0x10000) % 0x400 < 0x400 := Nat.mod_lt _ (by norm_num)
  have hdiv : (n - 0x10000) / 0x400 < 0x400 := by
    apply Nat.div_lt_of_lt_mul
    omega
  have hhi : 0xd800 + (n - 0x10000) / 0x400 < 65536 := by omega
  have hlo : 0xdc00 + (n - 0x10000) % 0x400 < 65536 := by omega
  rw [decodeUEscape, hex4At_hex4 hhi]
  dsimp only
  rw [if_pos (by omega : 0xd800 ≤ 0xd800 + (n - 0x10000) / 0x400 ∧
    0xd800 + (n - 0x10000) / 0x400 < 0xdc00)]
  rw [if_pos (show ('\\' :: 'u' :: (hex4 (0xdc00 + (n - 0x10000) % 0x400) ++ rest)).take 2 =
    ['\\', 'u'] from rfl)]
  rw [show ('\\' :: 'u' :: (hex4 (0xdc00 + (n - 0x10000) % 0x400) ++ rest)).drop 2 =
    hex4 (0xdc00 + (n - 0x10000) % 0x400) ++ rest from rfl]
  rw [hex4At_hex4 hlo]
  dsimp only
  rw [if_pos (by omega : 0xdc00 ≤ 0xdc00 + (n - 0x10000) % 0x400 ∧
    0xdc00 + (n - 0x10000) % 0x400 < 0xe000)]
  have harith : 0x10000 + ((0xd800 + (n - 0x10000) / 0x400) - 0xd800) * 0x400 +
      ((0xdc00 + (n - 0x10000) % 0x400) - 0xdc00) = n := by
    have := Nat.div_add_mod (n - 0x10000) 0x400
    omega
  rw [harith]

theorem parseStrGo_encodeChar (c : Char) (tail : List Char) (g : Nat) :
    parseStrGo (g + 1) (encodeChar c ++ tail) =
      (parseStrGo g tail).map fun p => (c :: p.1, p.2) := by
  have hvalid := char_valid_toNat c
  by_cases h1 : c = '"'
  · subst h1
    show parseStrGo (g + 1) ('\\' :: '"' :: tail) = _
    simp only [parseStrGo, escChar, reduceIte, Char.reduceEq]
  by_cases h2 : c = '\\'
  · subst h2
    show parseStrGo (g + 1) ('\\' :: '\\' :: tail) = _
    simp only [parseStrGo, escChar, reduceIte, Char.reduceEq]
  by_cases h3 : c = '\n'
  · subst h3
    show parseStrGo (g + 1) ('\\' :: 'n' :: tail) = _
    simp only [parseStrGo, escChar, reduceIte, Char.reduceEq]
  by_cases h4 : c = '\r'
  · subst h4
    show parseStrGo (g + 1) ('\\' :: 'r' :: tail) = _
    simp only [parseStrGo, escChar, reduceIte, Char.reduceEq]
  by_cases h5 : c = '\t'
  · subst h5
    show parseStrGo (g + 1) ('\\' :: 't' :: tail) = _
    simp only [parseStrGo, escChar, reduceIte, Char.reduceEq]
  by_cases h6 : c = '\x08'
  · subst h6
    show parseStrGo (g + 1) ('\\' :: 'b' :: tail) = _
    simp only [parseStrGo, escChar, reduceIte, Char.reduceEq]
  by_cases h7 : c = '\x0c'
  · subst h7
    show parseStrGo (g + 1) ('\\' :: 'f' :: tail) = _
    simp only [parseStrGo, escChar, reduceIte, Char.reduceEq]
  by_cases h8 : c.toNat < 0x20 ∨ (0x7e < c.toNat ∧ c.toNat < 0x10000)
  · have hlt : c.toNat < 65536 := by omega
    have hns : ¬(0xd800 ≤ c.toNat ∧ c.toNat < 0xe000) := by
      rcases hvalid with h | h <;> omega
    rw [show encodeChar c ++ tail = '\\' :: 'u' :: (hex4 c.toNat ++ tail) by
      rw [encodeChar, if_neg h1, if_neg h2, if_neg h3, if_neg h4, if_neg h5,
        if_neg h6, if_neg h7, if_pos h8]
      simp]
    simp only [parseStrGo, reduceIte, Char.reduceEq]
    rw [decodeUEscape_bmp hlt hns]
    dsimp only
    rw [Char.ofNat_toNat]
  by_cases h9 : 0x7e < c.toNat
  · have hge : 0x10000 ≤ c.toNat := by omega
    have hub : c.toNat < 0x110000 := by rcases hvalid with h | h <;> omega
    rw [show encodeChar c ++ tail = '\\' :: 'u' :: (hex4 (0xd800 + (c.toNat - 0x10000) / 0x400) ++
        ('\\' :: 'u' :: (hex4 (0xdc00 + (c.toNat - 0x10000) % 0x400) ++ tail))) by
      rw [encodeChar, if_neg h1, if_neg h2, if_neg h3, if_neg h4, if_neg h5,
        if_neg h6, if_neg h7, if_neg h8, if_pos h9]
      simp]
    rw [parseStrGo]
    rw [if_neg (show ¬(('\\' : Char) = '"') by decide)]
    rw [if_pos (show ('\\' : Char) = '\\' from rfl)]
    rw [if_pos (show ('u' : Char) = 'u' from rfl)]
    rw [decodeUEscape_astral hge hub]
    dsimp only
    rw [Char.ofNat_toNat]
  · rw [show encodeChar c ++ tail = c :: tail by
      rw [encodeChar, if_neg h1, if_neg h2, if_neg h3, if_neg h4, if_neg h5,
        if_neg h6, if_neg h7, if_neg h8, if_neg h9]
      simp]
    have hctl : ¬c.toNat < 0x20 := by omega
    simp only [parseStrGo, escChar, reduceIte, Char.reduceEq, if_neg h1, if_neg h2,
      if_neg hctl]

theorem encodeChar_length_pos (c : Char) : 1 ≤ (encodeChar c).length := by
  rw [encodeChar]
  split_ifs <;> simp

/-- Round trip of a whole encoded string body: at fuel covering the input
length, the scanner returns exactly the original characters and the input
after the closing quote. -/
theorem parseStrGo_encodeList (cs : List Char) :
    ∀ (f : Nat) (l : List Char), (encodeList cs ++ '"' :: l).length ≤ f →
      parseStrGo f (encodeList cs ++ '"' :: l) = some (cs, l) := by
  induction cs with
  | nil =>
    intro f l hf
    simp only [encodeList, List.nil_append, List.length_cons] at hf ⊢
    match f, hf with
    | g + 1, _ =>
      simp only [parseStrGo, reduceIte, Char.reduceEq]
  | cons c cs ih =>
    intro f l hf
    rw [encodeList, List.append_assoc] at hf ⊢
    have hlen : 1 ≤ (encodeChar c).length := encodeChar_length_pos c
    rw [List.length_append] at hf
    match f, (by omega : 1 ≤ f) with
    | g + 1, _ =>
      rw [parseStrGo_encodeChar, ih g l (by omega)]
      rfl

theorem parseStrChars_encodeList (cs l : List Char) :
    parseStrChars (encodeList cs ++ '"' :: l) = some (cs, l) :=
  parseStrGo_encodeList cs _ l le_rfl

/-! ## Value-level round-trip lemmas -/

theorem skipWs_cons_of_not {c : Char} (h : isJsonWs c = false) (l : List Char) :
    skipWs (c :: l) = c :: l := by
  simp [skipWs, List.dropWhile_cons, h]

theorem skipWs_append_of_all {w : List Char} (h : ∀ x ∈ w, isJsonWs x = true)
    (l : List Char) : skipWs (w ++ l) = skipWs l := by
  induction w with
  | nil => rfl
  | cons x xs ih =>
    simp only [List.cons_append, skipWs, List.dropWhile_cons, h x (by simp), if_true]
    exact ih (fun y hy => h y (List.mem_cons_of_mem _ hy))

theorem indentChars_all_ws (lvl : Nat) : ∀ x ∈ indentChars lvl, isJsonWs x = true := by
  intro x hx
  rw [indentChars] at hx
  rcases List.mem_cons.mp hx with rfl | hx
  · rfl
  · rw [List.eq_of_mem_replicate hx]
    rfl

theorem parseVal_cons_ws {c : Char} (h : isJsonWs c = true) (f : Nat) (l : List Char) :
    parseVal f (c :: l) = parseVal f l := by
  cases f with
  | zero => rfl
  | succ g =>
    rw [parseVal, parseVal, skipWs, skipWs, List.dropWhile_cons, if_pos h]

theorem parseVal_ws_append {w : List Char} (h : ∀ x ∈ w, isJsonWs x = true)
    (f : Nat) (l : List Char) : parseVal f (w ++ l) = parseVal f l := by
  cases f with
  | zero => rfl
  | succ g =>
    rw [parseVal, parseVal, show skipWs (w ++ l) = skipWs l from skipWs_append_of_all h l]

theorem parseArrTail_ws_append {w : List Char} (h : ∀ x ∈ w, isJsonWs x = true)
    (f : Nat) (l : List Char) : parseArrTail f (w ++ l) = parseArrTail f l := by
  cases f with
  | zero => rfl
  | succ g =>
    rw [parseArrTail, parseArrTail,
      show skipWs (w ++ l) = skipWs l from skipWs_append_of_all h l]

theorem parseObjTail_ws_append {w : List Char} (h : ∀ x ∈ w, isJsonWs x = true)
    (f : Nat) (l : List Char) : parseObjTail f (w ++ l) = parseObjTail f l := by
  cases f with
  | zero => rfl
  | succ g =>
    rw [parseObjTail, parseObjTail,
      show skipWs (w ++ l) = skipWs l from skipWs_append_of_all h l]

theorem parseMember_ws_append {w : List Char} (h : ∀ x ∈ w, isJsonWs x = true)
    (f : Nat) (l : List Char) : parseMember f (w ++ l) = parseMember f l := by
  cases f with
  | zero => rfl
  | succ g =>
    rw [parseMember, parseMember,
      show skipWs (w ++ l) = skipWs l from skipWs_append_of_all h l]

/-- The head of a printed integer is a digit or the minus sign. -/
theorem intChars_head (n : Int) :
    ∀ c, (intChars n).head? = some c → c.isDigit = true ∨ c = '-' := by
  intro c hc
  rw [intChars] at hc
  split at hc
  · simp only [List.head?_cons, Option.some.injEq] at hc
    exact Or.inr hc.symm
  · obtain ⟨d, ds, hcons⟩ := List.exists_cons_of_ne_nil (natChars_ne_nil n.toNat)
    rw [hcons] at hc
    simp only [List.head?_cons, Option.some.injEq] at hc
    rw [← hc]
    exact Or.inl (natChars_all_digits n.toNat d (by rw [hcons]; exact List.mem_cons_self d ds))

theorem isDigit_not_ws {c : Char} (h : c.isDigit = true) : isJsonWs c = false := by
  have f1 : ¬c = ' ' := fun he => absurd (he ▸ h) (by decide)
  have f2 : ¬c = '\t' := fun he => absurd (he ▸ h) (by decide)
  have f3 : ¬c = '\n' := fun he => absurd (he ▸ h) (by decide)
  have f4 : ¬c = '\r' := fun he => absurd (he ▸ h) (by decide)
  simp [isJsonWs, f1, f2, f3, f4]

/-- Round trip of one scalar value at any positive fuel. -/
theorem parseVal_scalar {v : Json} (hv : isScalar v = true) {f : Nat} (hf : 1 ≤ f)
    (rest : List Char) (hrest : ∀ c, rest.head? = some c → c.isDigit = false) :
    parseVal f (dumpsJson v ++ rest) = some (v, rest) := by
  match f, hf with
  | g + 1, _ =>
    match v with
    | .null =>
      show parseVal (g + 1) ('n' :: 'u' :: 'l' :: 'l' :: rest) = _
      rw [parseVal, skipWs_cons_of_not (by decide)]
      simp only [reduceIte, Char.reduceEq]
      rw [show ('u' :: 'l' :: 'l' :: rest).take 3 = ['u', 'l', 'l'] from rfl]
      simp only [reduceIte]
      rfl
    | .bool true =>
      show parseVal (g + 1) ('t' :: 'r' :: 'u' :: 'e' :: rest) = _
      rw [parseVal, skipWs_cons_of_not (by decide)]
      simp only [reduceIte, Char.reduceEq]
      rw [show ('r' :: 'u' :: 'e' :: rest).take 3 = ['r', 'u', 'e'] from rfl]
      simp only [reduceIte]
      rfl
    | .bool false =>
      show parseVal (g + 1) ('f' :: 'a' :: 'l' :: 's' :: 'e' :: rest) = _
      rw [parseVal, skipWs_cons_of_not (by decide)]
      simp only [reduceIte, Char.reduceEq]
      rw [show ('a' :: 'l' :: 's' :: 'e' :: rest).take 4 = ['a', 'l', 's', 'e'] from rfl]
      simp only [reduceIte]
      rfl
    | .str s =>
      rw [show dumpsJson (.str s) ++ rest =
        '"' :: ((encodeList s.data ++ ['"']) ++ rest) from rfl,
        List.append_assoc, List.singleton_append]
      rw [parseVal, skipWs_cons_of_not (by decide)]
      simp only [reduceIte, Char.reduceEq]
      rw [parseStrChars_encodeList]
      rfl
    | .num n =>
      obtain ⟨c, cs, hcons⟩ := List.exists_cons_of_ne_nil
        (show intChars n ≠ [] by
          rw [intChars]
          split
          · simp
          · exact natChars_ne_nil n.toNat)
      have hc : c.isDigit = true ∨ c = '-' :=
        intChars_head n c (by rw [hcons]; rfl)
      have hd : dumpsJson (.num n) ++ rest = c :: (cs ++ rest) := by
        show intChars n ++ rest = c :: (cs ++ rest)
        rw [hcons, List.cons_append]
      rw [hd, parseVal, skipWs_cons_of_not (by
        rcases hc with h | h
        · exact isDigit_not_ws h
        · subst h
          rfl)]
      dsimp only
      have hnotlit : ∀ lit : Char, lit.isDigit = false → lit ≠ '-' → ¬c = lit := by
        intro lit hlit hdash heq
        subst heq
        rcases hc with h | h
        · rw [h] at hlit
          exact absurd hlit (by simp)
        · exact hdash h
      rw [if_neg (hnotlit 'n' (by decide) (by decide)),
        if_neg (hnotlit 't' (by decide) (by decide)),
        if_neg (hnotlit 'f' (by decide) (by decide)),
        if_neg (hnotlit '"' (by decide) (by decide)),
        if_neg (hnotlit '[' (by decide) (by decide)),
        if_neg (hnotlit '{' (by decide) (by decide))]
      rw [show (c :: (cs ++ rest)) = (c :: cs) ++ rest from rfl, ← hcons,
        show intChars n ++ rest = dumpsJson (.num n) ++ rest from rfl]
      rw [show dumpsJson (.num n) = intChars n from rfl,
        parseNum_intChars n rest hrest]
      rfl

theorem parseMember_dump (k : String) {v : Json} (hv : isScalar v = true)
    {f : Nat} (hf : 2 ≤ f) (rest : List Char)
    (hrest : ∀ c, rest.head? = some c → c.isDigit = false) :
    parseMember f ('"' :: (encodeList k.data ++ ('"' :: ':' :: ' ' :: (dumpsJson v ++ rest)))) =
      some ((k, v), rest) := by
  match f, hf with
  | g + 1, _ =>
    rw [parseMember, skipWs_cons_of_not (by decide)]
    dsimp only
    simp only [reduceIte, Char.reduceEq]
    rw [parseStrChars_encodeList]
    dsimp only [Option.bind]
    rw [skipWs_cons_of_not (by decide)]
    simp only [List.head?_cons, Option.some.injEq, reduceIte, Char.reduceEq]
    rw [show (':' :: ' ' :: (dumpsJson v ++ rest)).tail = ' ' :: (dumpsJson v ++ rest) from rfl]
    rw [parseVal_cons_ws (by decide), parseVal_scalar hv (by omega) rest hrest]
    rfl

theorem objTailRest_head (ms : List (String × Json)) (rest : List Char) :
    ∀ c : Char, (((if ms.isEmpty then ([] : List Char) else [',', ' ']) ++
      (dumpsMembers ms ++ ('}' :: rest))).head? = some c) → c.isDigit = false := by
  intro c hc
  cases ms with
  | nil =>
    simp only [List.isEmpty_nil, if_true, dumpsMembers, List.nil_append,
      List.head?_cons, Option.some.injEq] at hc
    rw [← hc]
    decide
  | cons m ms' =>
    simp only [List.isEmpty_cons, Bool.false_eq_true, if_false, List.cons_append,
      List.head?_cons, Option.some.injEq] at hc
    rw [← hc]
    decide

theorem parseObjTail_dump (ms : List (String × Json))
    (hms : ∀ m ∈ ms, isScalar m.2 = true) :
    ∀ {f : Nat}, ms.length + 2 ≤ f → ∀ rest : List Char,
      parseObjTail f ((if ms.isEmpty then ([] : List Char) else [',', ' ']) ++
        (dumpsMembers ms ++ ('}' :: rest))) = some (ms, rest) := by
  induction ms with
  | nil =>
    intro f hf rest
    cases f with
    | zero => exact absurd hf (by omega)
    | succ g =>
      show parseObjTail (g + 1) ('}' :: rest) = some ([], rest)
      rw [parseObjTail, skipWs_cons_of_not (by decide)]
      simp only [reduceIte, Char.reduceEq]
  | cons m ms' ih =>
    intro f hf rest
    cases f with
    | zero => exact absurd hf (by omega)
    | succ g =>
      have hg : ms'.length + 2 ≤ g := by
        simp only [List.length_cons] at hf
        omega
      show parseObjTail (g + 1) (',' :: ' ' :: (dumpsMembers (m :: ms') ++ ('}' :: rest))) =
        some (m :: ms', rest)
      rw [parseObjTail, skipWs_cons_of_not (by decide)]
      simp only [reduceIte, Char.reduceEq]
      rw [dumpsMembers]
      simp only [List.append_assoc, List.cons_append]
      rw [show (' ' :: ('"' :: (encodeList m.1.data ++ ('"' :: ':' :: ' ' :: (dumpsJson m.2 ++
          ((if ms'.isEmpty then ([] : List Char) else [',', ' ']) ++
            (dumpsMembers ms' ++ ('}' :: rest)))))))) =
        [' '] ++ ('"' :: (encodeList m.1.data ++ ('"' :: ':' :: ' ' :: (dumpsJson m.2 ++
          ((if ms'.isEmpty then ([] : List Char) else [',', ' ']) ++
            (dumpsMembers ms' ++ ('}' :: rest))))))) from rfl]
      rw [parseMember_ws_append (by decide)]
      rw [parseMember_dump m.1 (hms m (by simp)) (by omega) _
        (objTailRest_head ms' rest)]
      dsimp only [Option.bind]
      rw [ih (fun x hx => hms x (List.mem_cons_of_mem _ hx)) (by omega) rest]
      rfl

theorem parseVal_obj (ms : List (String × Json))
    (hms : ∀ m ∈ ms, isScalar m.2 = true) {f : Nat} (hf : ms.length + 2 ≤ f)
    (rest : List Char) :
    parseVal f (dumpsJson (.obj ms) ++ rest) = some (.obj ms, rest) := by
  cases f with
  | zero => exact absurd hf (by omega)
  | succ g =>
    cases ms with
    | nil =>
      show parseVal (g + 1) ('{' :: '}' :: rest) = some (.obj [], rest)
      rw [parseVal, skipWs_cons_of_not (by decide)]
      simp only [reduceIte, Char.reduceEq]
      rw [skipWs_cons_of_not (by decide)]
      simp only [List.head?_cons, Option.some.injEq, reduceIte, Char.reduceEq]
      rfl
    | cons m ms' =>
      have hg : ms'.length + 2 ≤ g := by
        simp only [List.length_cons] at hf
        omega
      rw [show dumpsJson (.obj (m :: ms')) ++ rest =
        '{' :: ((dumpsMembers (m :: ms') ++ ['}']) ++ rest) from rfl,
        List.append_assoc, List.singleton_append]
      rw [parseVal, skipWs_cons_of_not (by decide)]
      simp only [reduceIte, Char.reduceEq]
      rw [dumpsMembers]
      simp only [List.append_assoc, List.cons_append]
      rw [skipWs_cons_of_not (by decide)]
      simp only [List.head?_cons, Option.some.injEq, reduceIte, Char.reduceEq]
      rw [parseMember_dump m.1 (hms m (by simp)) (by omega) _
        (objTailRest_head ms' rest)]
      dsimp only [Option.bind]
      rw [parseObjTail_dump ms' (fun x hx => hms x (List.mem_cons_of_mem _ hx))
        (by omega) rest]
      rfl

theorem arrTailRest_head (rs : List Json) (rest : List Char) :
    ∀ c : Char, (((if rs.isEmpty then ([] : List Char) else [',', ' ']) ++
      (dumpsItems rs ++ (']' :: rest))).head? = some c) → c.isDigit = false := by
  intro c hc
  cases rs with
  | nil =>
    simp only [List.isEmpty_nil, if_true, dumpsItems, List.nil_append,
      List.head?_cons, Option.some.injEq] at hc
    rw [← hc]
    decide
  | cons r rs' =>
    simp only [List.isEmpty_cons, Bool.false_eq_true, if_false, List.cons_append,
      List.head?_cons, Option.some.injEq] at hc
    rw [← hc]
    decide

/-- Destructure the structured-shape invariant at a cons cell. -/
theorem isStructured_cons {r : Json} {rs : List Json}
    (h : isStructured (r :: rs) = true) :
    (∃ ms, r = .obj ms ∧ ∀ m ∈ ms, isScalar m.2 = true) ∧ isStructured rs = true := by
  rw [isStructured, List.all_cons] at h
  rcases Bool.and_eq_true_iff.mp h with ⟨h1, h2⟩
  refine ⟨?_, h2⟩
  cases r with
  | obj ms =>
    refine ⟨ms, rfl, ?_⟩
    intro m hm
    exact List.all_eq_true.mp h1 m hm
  | null => exact absurd h1 (by simp)
  | bool b => exact absurd h1 (by simp)
  | num n => exact absurd h1 (by simp)
  | str s => exact absurd h1 (by simp)
  | arr items => exact absurd h1 (by simp)

theorem parseArrTail_dump (rs : List Json) (hrs : isStructured rs = true) :
    ∀ {f : Nat}, parseFuelBound rs ≤ f → ∀ rest : List Char,
      parseArrTail f ((if rs.isEmpty then ([] : List Char) else [',', ' ']) ++
        (dumpsItems rs ++ (']' :: rest))) = some (rs, rest) := by
  induction rs with
  | nil =>
    intro f hf rest
    cases f with
    | zero => exact absurd hf (by simp [parseFuelBound])
    | succ g =>
      show parseArrTail (g + 1) (']' :: rest) = some ([], rest)
      rw [parseArrTail, skipWs_cons_of_not (by decide)]
      simp only [reduceIte, Char.reduceEq]
  | cons r rs' ih =>
    intro f hf rest
    obtain ⟨⟨ms, rfl, hms⟩, hrs'⟩ := isStructured_cons hrs
    cases f with
    | zero => exact absurd hf (by simp [parseFuelBound])
    | succ g =>
      have hg : ms.length + 2 ≤ g ∧ parseFuelBound rs' ≤ g := by
        rw [parseFuelBound] at hf
        omega
      show parseArrTail (g + 1)
        (',' :: ' ' :: (dumpsItems (Json.obj ms :: rs') ++ (']' :: rest))) =
        some (Json.obj ms :: rs', rest)
      rw [parseArrTail, skipWs_cons_of_not (by decide)]
      simp only [reduceIte, Char.reduceEq]
      rw [dumpsItems]
      simp only [List.append_assoc, List.cons_append]
      rw [show (' ' :: (dumpsJson (Json.obj ms) ++
          ((if rs'.isEmpty then ([] : List Char) else [',', ' ']) ++
            (dumpsItems rs' ++ (']' :: rest))))) =
        [' '] ++ (dumpsJson (Json.obj ms) ++
          ((if rs'.isEmpty then ([] : List Char) else [',', ' ']) ++
            (dumpsItems rs' ++ (']' :: rest)))) from rfl]
      rw [parseVal_ws_append (by decide)]
      rw [parseVal_obj ms hms (by omega) _]
      dsimp only [Option.bind]
      rw [ih hrs' (by omega) rest]
      rfl

theorem parseVal_arr (rs : List Json) (hrs : isStructured rs = true) {f : Nat}
    (hf : parseFuelBound rs + 1 ≤ f) (rest : List Char) :
    parseVal f (dumpsJson (.arr rs) ++ rest) = some (.arr rs, rest) := by
  cases f with
  | zero => exact absurd hf (by omega)
  | succ g =>
    cases rs with
    | nil =>
      show parseVal (g + 1) ('[' :: ']' :: rest) = some (.arr [], rest)
      rw [parseVal, skipWs_cons_of_not (by decide)]
      simp only [reduceIte, Char.reduceEq]
      rw [skipWs_cons_of_not (by decide)]
      simp only [List.head?_cons, Option.some.injEq, reduceIte, Char.reduceEq]
      rfl
    | cons r rs' =>
      obtain ⟨⟨ms, rfl, hms⟩, hrs'⟩ := isStructured_cons hrs
      have hg : ms.length + 2 ≤ g ∧ parseFuelBound rs' ≤ g := by
        rw [parseFuelBound] at hf
        omega
      rw [show dumpsJson (.arr (Json.obj ms :: rs')) ++ rest =
        '[' :: ((dumpsItems (Json.obj ms :: rs') ++ [']']) ++ rest) from rfl,
        List.append_assoc, List.singleton_append]
      rw [parseVal, skipWs_cons_of_not (by decide)]
      simp only [reduceIte, Char.reduceEq]
      rw [dumpsItems]
      simp only [List.append_assoc, List.cons_append]
      rw [show dumpsJson (Json.obj ms) ++
          ((if rs'.isEmpty then ([] : List Char) else [',', ' ']) ++
            (dumpsItems rs' ++ (']' :: rest))) =
        '{' :: (dumpsMembers ms ++ ('}' ::
          ((if rs'.isEmpty then ([] : List Char) else [',', ' ']) ++
            (dumpsItems rs' ++ (']' :: rest))))) by
        rw [show dumpsJson (Json.obj ms) = '{' :: (dumpsMembers ms ++ ['}']) from rfl]
        simp [List.append_assoc]]
      rw [skipWs_cons_of_not (by decide)]
      simp only [List.head?_cons, Option.some.injEq, reduceIte, Char.reduceEq]
      rw [show '{' :: (dumpsMembers ms ++ ('}' ::
          ((if rs'.isEmpty then ([] : List Char) else [',', ' ']) ++
            (dumpsItems rs' ++ (']' :: rest))))) =
        dumpsJson (Json.obj ms) ++
          ((if rs'.isEmpty then ([] : List Char) else [',', ' ']) ++
            (dumpsItems rs' ++ (']' :: rest))) by
        rw [show dumpsJson (Json.obj ms) = '{' :: (dumpsMembers ms ++ ['}']) from rfl]
        simp [List.append_assoc]]
      rw [parseVal_obj ms hms (by omega) _]
      dsimp only [Option.bind]
      rw [parseArrTail_dump rs' hrs' (by omega) rest]
      rfl

theorem dumpsMembers_length (ms : List (String × Json)) :
    2 * ms.length ≤ (dumpsMembers ms).length := by
  induction ms with
  | nil => simp [dumpsMembers]
  | cons m ms' ih =>
    rw [dumpsMembers]
    simp only [List.length_cons, List.length_append]
    omega

theorem parseFuelBound_le (rs : List Json) (hrs : isStructured rs = true) :
    parseFuelBound rs ≤ (dumpsItems rs).length + 2 := by
  induction rs with
  | nil => simp [parseFuelBound, dumpsItems]
  | cons r rs' ih =>
    obtain ⟨⟨ms, rfl, _⟩, hrs'⟩ := isStructured_cons hrs
    have hih := ih hrs'
    have hobj : 2 * ms.length + 2 ≤ (dumpsJson (Json.obj ms)).length := by
      rw [show dumpsJson (Json.obj ms) = '\x7b' :: (dumpsMembers ms ++ ['\x7d']) from rfl]
      simp only [List.length_cons, List.length_append, List.length_singleton,
        List.length_nil]
      have := dumpsMembers_length ms
      omega
    rw [parseFuelBound, dumpsItems]
    simp only [List.length_append, List.length_cons]
    cases rs' with
    | nil =>
      simp only [parseFuelBound, List.isEmpty_nil, if_true, dumpsItems,
        List.length_nil] at *
      omega
    | cons x xs =>
      simp only [List.isEmpty_cons, Bool.false_eq_true, if_false,
        List.length_cons, List.length_nil] at *
      omega

/-- `json.loads ∘ json.dumps` is the identity on structured results
(compact printing). -/
theorem parse_dumps_structured (rs : List Json) (hrs : isStructured rs = true) :
    Json.parse (Json.dumps (.arr rs)) = some (.arr rs) := by
  rw [Json.parse]
  rw [show (Json.dumps (.arr rs)).data = dumpsJson (.arr rs) from rfl]
  have hfuel : parseFuelBound rs + 1 ≤ (dumpsJson (.arr rs)).length + 1 := by
    have h1 := parseFuelBound_le rs hrs
    have h2 : (dumpsJson (.arr rs)).length = (dumpsItems rs).length + 2 := by
      rw [show dumpsJson (.arr rs) = '[' :: (dumpsItems rs ++ [']']) from rfl]
      simp
    omega
  rw [show dumpsJson (Json.arr rs) = dumpsJson (Json.arr rs) ++ ([] : List Char) from
    (List.append_nil _).symm]
  rw [parseVal_arr rs hrs (by
    rw [List.append_nil]
    exact hfuel) []]
  rfl

/-! ## Round trip for the indented printer -/

theorem dumpsInd_scalar {v : Json} (hv : isScalar v = true) (lvl : Nat) :
    dumpsInd lvl v = dumpsJson v := by
  cases v with
  | null => rfl
  | bool b => cases b <;> rfl
  | num n => rfl
  | str s => rfl
  | arr items => exact absurd hv (by simp [isScalar])
  | obj ms => exact absurd hv (by simp [isScalar])

theorem indObjTailRest_head (lvl lvlO : Nat) (ms : List (String × Json))
    (rest : List Char) :
    ∀ c : Char, ((dumpsIndMembers lvl ms ++
      (indentChars lvlO ++ ('}' :: rest))).head? = some c) → c.isDigit = false := by
  intro c hc
  cases ms with
  | nil =>
    simp only [dumpsIndMembers, List.nil_append, indentChars, List.cons_append,
      List.head?_cons, Option.some.injEq] at hc
    rw [← hc]
    decide
  | cons m ms' =>
    simp only [dumpsIndMembers, List.cons_append, List.head?_cons,
      Option.some.injEq] at hc
    rw [← hc]
    decide

theorem parseObjTailInd_dump (lvl lvlO : Nat) (ms : List (String × Json))
    (hms : ∀ m ∈ ms, isScalar m.2 = true) :
    ∀ {f : Nat}, ms.length + 2 ≤ f → ∀ rest : List Char,
      parseObjTail f (dumpsIndMembers lvl ms ++ (indentChars lvlO ++ ('}' :: rest))) =
        some (ms, rest) := by
  induction ms with
  | nil =>
    intro f hf rest
    cases f with
    | zero => exact absurd hf (by omega)
    | succ g =>
      rw [dumpsIndMembers, List.nil_append,
        parseObjTail_ws_append (indentChars_all_ws lvlO)]
      rw [parseObjTail, skipWs_cons_of_not (by decide)]
      simp only [reduceIte, Char.reduceEq]
  | cons m ms' ih =>
    intro f hf rest
    cases f with
    | zero => exact absurd hf (by omega)
    | succ g =>
      have hg : ms'.length + 2 ≤ g := by
        simp only [List.length_cons] at hf
        omega
      rw [dumpsIndMembers]
      simp only [List.append_assoc, List.cons_append, List.nil_append]
      rw [parseObjTail, skipWs_cons_of_not (by decide)]
      simp only [reduceIte, Char.reduceEq]
      rw [parseMember_ws_append (indentChars_all_ws lvl)]
      rw [dumpsInd_scalar (hms m (by simp)) lvl]
      rw [parseMember_dump m.1 (hms m (by simp)) (by omega) _
        (indObjTailRest_head lvl lvlO ms' rest)]
      dsimp only [Option.bind]
      rw [ih (fun x hx => hms x (List.mem_cons_of_mem _ hx)) (by omega) rest]
      rfl

theorem parseValInd_obj (lvl : Nat) (ms : List (String × Json))
    (hms : ∀ m ∈ ms, isScalar m.2 = true) {f : Nat} (hf : ms.length + 2 ≤ f)
    (rest : List Char) :
    parseVal f (dumpsInd lvl (.obj ms) ++ rest) = some (.obj ms, rest) := by
  cases f with
  | zero => exact absurd hf (by omega)
  | succ g =>
    cases ms with
    | nil =>
      show parseVal (g + 1) ('{' :: '}' :: rest) = some (.obj [], rest)
      rw [parseVal, skipWs_cons_of_not (by decide)]
      simp only [reduceIte, Char.reduceEq]
      rw [skipWs_cons_of_not (by decide)]
      simp only [List.head?_cons, Option.some.injEq, reduceIte, Char.reduceEq]
      rfl
    | cons m ms' =>
      have hg : ms'.length + 2 ≤ g := by
        simp only [List.length_cons] at hf
        omega
      rw [dumpsInd]
      simp only [List.append_assoc, List.cons_append, List.nil_append]
      rw [parseVal, skipWs_cons_of_not (by decide)]
      simp only [reduceIte, Char.reduceEq]
      rw [show skipWs (indentChars (lvl + 1) ++
          ('"' :: (encodeList m.1.data ++ ('"' :: ':' :: ' ' :: (dumpsInd (lvl + 1) m.2 ++
            (dumpsIndMembers (lvl + 1) ms' ++ (indentChars lvl ++ ('}' :: rest)))))))) =
        '"' :: (encodeList m.1.data ++ ('"' :: ':' :: ' ' :: (dumpsInd (lvl + 1) m.2 ++
          (dumpsIndMembers (lvl + 1) ms' ++ (indentChars lvl ++ ('}' :: rest)))))) by
        rw [skipWs_append_of_all (indentChars_all_ws (lvl + 1)),
          skipWs_cons_of_not (by decide)]]
      simp only [List.head?_cons, Option.some.injEq, reduceIte, Char.reduceEq]
      rw [parseMember_ws_append (indentChars_all_ws (lvl + 1))]
      rw [dumpsInd_scalar (hms m (by simp)) (lvl + 1)]
      rw [parseMember_dump m.1 (hms m (by simp)) (by omega) _
        (indObjTailRest_head (lvl + 1) lvl ms' rest)]
      dsimp only [Option.bind]
      rw [parseObjTailInd_dump (lvl + 1) lvl ms'
        (fun x hx => hms x (List.mem_cons_of_mem _ hx)) (by omega) rest]
      rfl

theorem indArrTailRest_head (lvl lvlO : Nat) (rs : List Json) (rest : List Char) :
    ∀ c : Char, ((dumpsIndItems lvl rs ++
      (indentChars lvlO ++ (']' :: rest))).head? = some c) → c.isDigit = false := by
  intro c hc
  cases rs with
  | nil =>
    simp only [dumpsIndItems, List.nil_append, indentChars, List.cons_append,
      List.head?_cons, Option.some.injEq] at hc
    rw [← hc]
    decide
  | cons r rs' =>
    simp only [dumpsIndItems, List.cons_append, List.head?_cons,
      Option.some.injEq] at hc
    rw [← hc]
    decide

theorem parseArrTailInd_dump (lvl lvlO : Nat) (rs : List Json)
    (hrs : isStructured rs = true) :
    ∀ {f : Nat}, parseFuelBound rs ≤ f → ∀ rest : List Char,
      parseArrTail f (dumpsIndItems lvl rs ++ (indentChars lvlO ++ (']' :: rest))) =
        some (rs, rest) := by
  induction rs with
  | nil =>
    intro f hf rest
    cases f with
    | zero => exact absurd hf (by simp [parseFuelBound])
    | succ g =>
      rw [dumpsIndItems, List.nil_append,
        parseArrTail_ws_append (indentChars_all_ws lvlO)]
      rw [parseArrTail, skipWs_cons_of_not (by decide)]
      simp only [reduceIte, Char.reduceEq]
  | cons r rs' ih =>
    intro f hf rest
    obtain ⟨⟨ms, rfl, hms⟩, hrs'⟩ := isStructured_cons hrs
    cases f with
    | zero => exact absurd hf (by simp [parseFuelBound])
    | succ g =>
      have hg : ms.length + 2 ≤ g ∧ parseFuelBound rs' ≤ g := by
        rw [parseFuelBound] at hf
        omega
      rw [dumpsIndItems]
      simp only [List.append_assoc, List.cons_append, List.nil_append]
      rw [parseArrTail, skipWs_cons_of_not (by decide)]
      simp only [reduceIte, Char.reduceEq]
      rw [parseVal_ws_append (indentChars_all_ws lvl)]
      rw [parseValInd_obj lvl ms hms (by omega) _]
      dsimp only [Option.bind]
      rw [ih hrs' (by omega) rest]
      rfl

theorem parseValInd_arr (lvl : Nat) (rs : List Json) (hrs : isStructured rs = true)
    {f : Nat} (hf : parseFuelBound rs + 1 ≤ f) (rest : List Char) :
    parseVal f (dumpsInd lvl (.arr rs) ++ rest) = some (.arr rs, rest) := by
  cases f with
  | zero => exact absurd hf (by omega)
  | succ g =>
    cases rs with
    | nil =>
      show parseVal (g + 1) ('[' :: ']' :: rest) = some (.arr [], rest)
      rw [parseVal, skipWs_cons_of_not (by decide)]
      simp only [reduceIte, Char.reduceEq]
      rw [skipWs_cons_of_not (by decide)]
      simp only [List.head?_cons, Option.some.injEq, reduceIte, Char.reduceEq]
      rfl
    | cons r rs' =>
      obtain ⟨⟨ms, rfl, hms⟩, hrs'⟩ := isStructured_cons hrs
      have hg : ms.length + 2 ≤ g ∧ parseFuelBound rs' ≤ g := by
        rw [parseFuelBound] at hf
        omega
      rw [dumpsInd]
      simp only [List.append_assoc, List.cons_append, List.nil_append]
      rw [parseVal, skipWs_cons_of_not (by decide)]
      simp only [reduceIte, Char.reduceEq]
      rw [show skipWs (indentChars (lvl + 1) ++ (dumpsInd (lvl + 1) (Json.obj ms) ++
          (dumpsIndItems (lvl + 1) rs' ++ (indentChars lvl ++ (']' :: rest))))) =
        skipWs (dumpsInd (lvl + 1) (Json.obj ms) ++
          (dumpsIndItems (lvl + 1) rs' ++ (indentChars lvl ++ (']' :: rest)))) from
        skipWs_append_of_all (indentChars_all_ws (lvl + 1)) _]
      have hhead : ∃ t, dumpsInd (lvl + 1) (Json.obj ms) ++
          (dumpsIndItems (lvl + 1) rs' ++ (indentChars lvl ++ (']' :: rest))) =
          '{' :: t := by
        cases ms with
        | nil => exact ⟨'}' :: (dumpsIndItems (lvl + 1) rs' ++
            (indentChars lvl ++ (']' :: rest))), rfl⟩
        | cons m ms' =>
          rw [dumpsInd]
          simp only [List.append_assoc, List.cons_append, List.nil_append]
          exact ⟨_, rfl⟩
      obtain ⟨t, ht⟩ := hhead
      rw [ht, skipWs_cons_of_not (by decide)]
      simp only [List.head?_cons, Option.some.injEq, reduceIte, Char.reduceEq]
      rw [← ht]
      rw [parseVal_ws_append (indentChars_all_ws (lvl + 1))]
      rw [parseValInd_obj (lvl + 1) ms hms (by omega) _]
      dsimp only [Option.bind]
      rw [parseArrTailInd_dump (lvl + 1) lvl rs' hrs' (by omega) rest]
      rfl

theorem indentChars_length (lvl : Nat) : (indentChars lvl).length = 2 * lvl + 1 := by
  simp [indentChars]

theorem dumpsIndMembers_length (lvl : Nat) (ms : List (String × Json)) :
    2 * ms.length ≤ (dumpsIndMembers lvl ms).length := by
  induction ms with
  | nil => simp [dumpsIndMembers]
  | cons m ms' ih =>
    rw [dumpsIndMembers]
    simp only [List.length_cons, List.length_append]
    omega

theorem dumpsInd_obj_length (lvl : Nat) (ms : List (String × Json)) :
    ms.length + 2 ≤ (dumpsInd lvl (.obj ms)).length := by
  cases ms with
  | nil => simp [dumpsInd]
  | cons m ms' =>
    rw [dumpsInd]
    simp only [List.length_cons, List.length_append]
    have := dumpsIndMembers_length (lvl + 1) ms'
    omega

theorem parseFuelBoundInd_le (lvl : Nat) (rs : List Json)
    (hrs : isStructured rs = true) :
    parseFuelBound rs ≤ (dumpsIndItems lvl rs).length + 2 := by
  induction rs with
  | nil => simp [parseFuelBound, dumpsIndItems]
  | cons r rs' ih =>
    obtain ⟨⟨ms, rfl, _⟩, hrs'⟩ := isStructured_cons hrs
    have hih := ih hrs'
    have hobj := dumpsInd_obj_length lvl ms
    rw [parseFuelBound, dumpsIndItems]
    simp only [List.length_cons, List.length_append]
    omega

/-- `json.loads` inverts `json.dumps(..., indent=2)` on structured results. -/
theorem parse_dumpsIndent_structured (rs : List Json)
    (hrs : isStructured rs = true) :
    Json.parse (Json.dumpsIndent (.arr rs)) = some (.arr rs) := by
  rw [Json.parse]
  rw [show (Json.dumpsIndent (.arr rs)).data = dumpsInd 0 (.arr rs) from rfl]
  have hfuel : parseFuelBound rs + 1 ≤ (dumpsInd 0 (.arr rs)).length + 1 := by
    cases rs with
    | nil => simp [parseFuelBound, dumpsInd]
    | cons r rs' =>
      obtain ⟨⟨ms, rfl, _⟩, hrs'⟩ := isStructured_cons hrs
      have h1 := parseFuelBoundInd_le 1 rs'
      have h2 := dumpsInd_obj_length 1 ms
      rw [parseFuelBound, dumpsInd]
      simp only [List.length_cons, List.length_append, indentChars_length,
        List.length_singleton, List.length_nil, Nat.zero_add]
      have := h1 hrs'
      omega
  rw [show dumpsInd 0 (Json.arr rs) = dumpsInd 0 (Json.arr rs) ++ ([] : List Char) from
    (List.append_nil _).symm]
  rw [parseValInd_arr 0 rs hrs (by
    rw [List.append_nil]
    exact hfuel) []]
  rfl

/-! ## Idempotence of the flattening stage -/

theorem dropWhile_head_not {p : Char → Bool} (l : List Char) :
    ∀ x, (l.dropWhile p).head? = some x → p x = false := by
  induction l with
  | nil => intro x hx; simp at hx
  | cons c cs ih =>
    intro x hx
    rw [List.dropWhile_cons] at hx
    by_cases hc : p c
    · rw [if_pos hc] at hx
      exact ih x hx
    · rw [if_neg hc] at hx
      simp only [List.head?_cons, Option.some.injEq] at hx
      rw [← hx]
      exact Bool.not_eq_true _ ▸ (by simpa using hc)

theorem dropWhile_idem {p : Char → Bool} (l : List Char) :
    (l.dropWhile p).dropWhile p = l.dropWhile p := by
  cases h : l.dropWhile p with
  | nil => rfl
  | cons x xs =>
    have hx : p x = false := dropWhile_head_not l x (by rw [h]; rfl)
    rw [List.dropWhile_cons, if_neg (by simp [hx])]

theorem dropTrailWs_front (l : List Char) : dropTrailWs l <+: l := by
  rw [dropTrailWs]
  have h : l.reverse.dropWhile isPyWs <:+ l.reverse := List.dropWhile_suffix _
  apply List.reverse_suffix.mp
  rw [List.reverse_reverse]
  exact h

theorem pyStrip_subset {x : Char} {l : List Char} (h : x ∈ pyStrip l) : x ∈ l := by
  rw [pyStrip] at h
  have h1 := (dropTrailWs_front (l.dropWhile isPyWs)).subset h
  exact (List.dropWhile_sublist _).subset h1

theorem pyStrip_idem (l : List Char) : pyStrip (pyStrip l) = pyStrip l := by
  rw [pyStrip, pyStrip]
  set a := l.dropWhile isPyWs with ha
  set b := dropTrailWs a with hb
  have hrev : b.reverse = a.reverse.dropWhile isPyWs := by
    rw [hb, dropTrailWs, List.reverse_reverse]
  have hdropb : b.dropWhile isPyWs = b := by
    cases hc : b with
    | nil => rfl
    | cons x xs =>
      have hpre : b <+: a := dropTrailWs_front a
      obtain ⟨t, hbt⟩ := hpre
      have hx : a.head? = some x := by
        rw [← hbt, hc]
        rfl
      have hxa : isPyWs x = false := by
        apply dropWhile_head_not l
        rw [← ha]
        exact hx
      rw [List.dropWhile_cons, if_neg (by simp [hxa])]
  rw [hdropb]
  conv_lhs => rw [dropTrailWs]
  rw [hrev, dropWhile_idem, ← hrev, List.reverse_reverse]

theorem splitOnChar_ne_nil (sep : Char) (l : List Char) : splitOnChar sep l ≠ [] := by
  cases l with
  | nil => simp [splitOnChar]
  | cons x xs =>
    rw [splitOnChar]
    by_cases h : x = sep
    · simp [h]
    · rw [if_neg h]
      cases splitOnChar sep xs <;> simp

theorem mem_splitOnChar {sep x : Char} {piece l : List Char}
    (hx : x ∈ piece) (hp : piece ∈ splitOnChar sep l) : x ∈ l ∧ x ≠ sep := by
  induction l generalizing piece with
  | nil =>
    simp only [splitOnChar, List.mem_singleton] at hp
    subst hp
    simp at hx
  | cons c cs ih =>
    rw [splitOnChar] at hp
    by_cases hc : c = sep
    · rw [if_pos hc] at hp
      rcases List.mem_cons.mp hp with rfl | hp
      · simp at hx
      · obtain ⟨hmem, hne⟩ := ih hx hp
        exact ⟨List.mem_cons_of_mem _ hmem, hne⟩
    · rw [if_neg hc] at hp
      cases hsc : splitOnChar sep cs with
      | nil => exact absurd hsc (splitOnChar_ne_nil sep cs)
      | cons h t =>
        rw [hsc] at hp
        rcases List.mem_cons.mp hp with rfl | hp
        · rcases List.mem_cons.mp hx with rfl | hx
          · exact ⟨by simp, hc⟩
          · obtain ⟨hmem, hne⟩ := ih hx (by rw [hsc]; exact List.mem_cons_self h t)
            exact ⟨List.mem_cons_of_mem _ hmem, hne⟩
        · obtain ⟨hmem, hne⟩ := ih hx (by rw [hsc]; exact List.mem_cons_of_mem _ hp)
          exact ⟨List.mem_cons_of_mem _ hmem, hne⟩

theorem splitOnChar_no_sep {sep : Char} {l : List Char} (h : sep ∉ l) :
    splitOnChar sep l = [l] := by
  induction l with
  | nil => rfl
  | cons c cs ih =>
    rw [splitOnChar,
      if_neg (fun hc => h (by rw [← hc]; exact List.mem_cons_self c cs)),
      ih (fun hc => h (List.mem_cons_of_mem _ hc))]

theorem pySplitlinesGo_stable :
    ∀ f : Nat, ∀ l : List Char, l.length ≤ f → pySplitlinesGo f l = pySplitlines l := by
  intro f
  induction f using Nat.strong_induction_on with
  | _ f ih =>
    intro l hl
    cases l with
    | nil =>
      cases f with
      | zero => rfl
      | succ g => rfl
    | cons x xs =>
      cases f with
      | zero => simp at hl
      | succ g =>
      have hxs : xs.length ≤ g := by
        simp only [List.length_cons] at hl
        omega
      rw [show pySplitlines (x :: xs) = pySplitlinesGo (xs.length + 1) (x :: xs) from rfl]
      rw [pySplitlinesGo, pySplitlinesGo]
      by_cases hbd : isLineBoundary x
      · rw [if_pos hbd, if_pos hbd]
        by_cases hrn : x = '\r' ∧ xs.head? = some '\n'
        · rw [if_pos hrn, if_pos hrn]
          have htl : xs.tail.length ≤ g := by
            rw [List.length_tail]
            omega
          rw [ih g (by omega) xs.tail htl,
            ih xs.length (by omega) xs.tail (by rw [List.length_tail]; omega)]
        · rw [if_neg hrn, if_neg hrn]
          rw [ih g (by omega) xs hxs, ih xs.length (by omega) xs le_rfl]
      · rw [if_neg hbd, if_neg hbd]
        rw [ih g (by omega) xs hxs, ih xs.length (by omega) xs le_rfl]

theorem pySplitlines_cons_not_bd {x : Char} (hx : isLineBoundary x = false)
    (xs : List Char) :
    pySplitlines (x :: xs) =
      match pySplitlines xs with
      | [] => [[x]]
      | h :: t => (x :: h) :: t := by
  rw [show pySplitlines (x :: xs) = pySplitlinesGo (xs.length + 1) (x :: xs) from rfl,
    pySplitlinesGo, if_neg (by simp [hx]),
    pySplitlinesGo_stable xs.length xs le_rfl]

theorem pySplitlines_nl_cons (t : List Char) :
    pySplitlines ('\n' :: t) = [] :: pySplitlines t := by
  rw [show pySplitlines ('\n' :: t) = pySplitlinesGo (t.length + 1) ('\n' :: t) from rfl,
    pySplitlinesGo, if_pos (by decide), if_neg (by simp),
    pySplitlinesGo_stable t.length t le_rfl]

theorem pySplitlines_append_nl {c : List Char}
    (hc : ∀ x ∈ c, isLineBoundary x = false) (t : List Char) :
    pySplitlines (c ++ '\n' :: t) = c :: pySplitlines t := by
  induction c with
  | nil => exact pySplitlines_nl_cons t
  | cons x c' ih =>
    rw [List.cons_append, pySplitlines_cons_not_bd (hc x (by simp)),
      ih (fun y hy => hc y (List.mem_cons_of_mem _ hy))]

theorem pySplitlines_no_bd {c : List Char} (hne : c ≠ [])
    (hc : ∀ x ∈ c, isLineBoundary x = false) :
    pySplitlines c = [c] := by
  induction c with
  | nil => exact absurd rfl hne
  | cons x c' ih =>
    rw [pySplitlines_cons_not_bd (hc x (by simp))]
    cases hcc : c' with
    | nil => rfl
    | cons y ys =>
      rw [← hcc, ih (by rw [hcc]; simp) (fun z hz => hc z (List.mem_cons_of_mem _ hz))]

theorem mem_pySplitlinesGo {x : Char} :
    ∀ (f : Nat) (l line : List Char), x ∈ line → line ∈ pySplitlinesGo f l →
      x ∈ l ∧ isLineBoundary x = false := by
  intro f
  induction f with
  | zero =>
    intro l line _ hline
    simp [pySplitlinesGo] at hline
  | succ g ih =>
    intro l line hx hline
    match l with
    | [] => simp [pySplitlinesGo] at hline
    | c :: cs =>
      rw [pySplitlinesGo] at hline
      by_cases hbd : isLineBoundary c
      · rw [if_pos hbd] at hline
        by_cases hrn : c = '\r' ∧ cs.head? = some '\n'
        · rw [if_pos hrn] at hline
          rcases List.mem_cons.mp hline with rfl | hline
          · simp at hx
          · obtain ⟨hmem, hnb⟩ := ih cs.tail line hx hline
            exact ⟨List.mem_cons_of_mem _ (List.mem_of_mem_tail hmem), hnb⟩
        · rw [if_neg hrn] at hline
          rcases List.mem_cons.mp hline with rfl | hline
          · simp at hx
          · obtain ⟨hmem, hnb⟩ := ih cs line hx hline
            exact ⟨List.mem_cons_of_mem _ hmem, hnb⟩
      · rw [if_neg hbd] at hline
        cases hgo : pySplitlinesGo g cs with
        | nil =>
          rw [hgo, List.mem_singleton] at hline
          subst hline
          rcases List.mem_singleton.mp hx with rfl
          exact ⟨by simp, by simpa using hbd⟩
        | cons h t =>
          rw [hgo] at hline
          rcases List.mem_cons.mp hline with rfl | hline
          · rcases List.mem_cons.mp hx with rfl | hx
            · exact ⟨by simp, by simpa using hbd⟩
            · obtain ⟨hmem, hnb⟩ := ih cs h hx (by rw [hgo]; exact List.mem_cons_self h t)
              exact ⟨List.mem_cons_of_mem _ hmem, hnb⟩
          · obtain ⟨hmem, hnb⟩ := ih cs line hx (by rw [hgo]; exact List.mem_cons_of_mem _ hline)
            exact ⟨List.mem_cons_of_mem _ hmem, hnb⟩

theorem mem_pySplitlines {x : Char} {l line : List Char} (hx : x ∈ line)
    (hline : line ∈ pySplitlines l) : x ∈ l ∧ isLineBoundary x = false :=
  mem_pySplitlinesGo l.length l line hx hline

theorem pySplitlines_joinNl (cs : List (List Char))
    (h : ∀ c ∈ cs, c ≠ [] ∧ ∀ x ∈ c, isLineBoundary x = false) :
    pySplitlines (joinNl cs) = cs := by
  induction cs with
  | nil => rfl
  | cons c cs' ih =>
    cases cs' with
    | nil => exact pySplitlines_no_bd (h c (by simp)).1 (h c (by simp)).2
    | cons c2 cs'' =>
      rw [show joinNl (c :: c2 :: cs'') = c ++ '\n' :: joinNl (c2 :: cs'') from rfl]
      rw [pySplitlines_append_nl (h c (by simp)).2]
      rw [ih (fun d hd => h d (List.mem_cons_of_mem _ hd))]

theorem map_eq_self_of {α : Type} (f : α → α) (l : List α) (h : ∀ x ∈ l, f x = x) :
    l.map f = l := by
  induction l with
  | nil => rfl
  | cons x xs ih =>
    rw [List.map_cons, h x (by simp), ih (fun y hy => h y (List.mem_cons_of_mem _ hy))]

theorem flatMap_eq_self_of {α : Type} (f : α → List α) (l : List α)
    (h : ∀ x ∈ l, f x = [x]) : l.flatMap f = l := by
  induction l with
  | nil => rfl
  | cons x xs ih =>
    rw [List.flatMap_cons, h x (by simp),
      ih (fun y hy => h y (List.mem_cons_of_mem _ hy))]
    rfl

theorem flatten_chunk_props {t c : List Char}
    (hc : c ∈ (flattenChunks t).filter (fun c => ¬c.isEmpty)) :
    c ≠ [] ∧ pyStrip c = c ∧ ' ' ∉ c ∧ ∀ x ∈ c, isLineBoundary x = false := by
  rw [List.mem_filter] at hc
  obtain ⟨hmem, hne⟩ := hc
  rw [flattenChunks, List.mem_flatMap] at hmem
  obtain ⟨line', hline', hc2⟩ := hmem
  rw [List.mem_map] at hc2
  obtain ⟨phrase, hphrase, rfl⟩ := hc2
  rw [List.mem_map] at hline'
  obtain ⟨line, hline, rfl⟩ := hline'
  refine ⟨?_, pyStrip_idem phrase, ?_, ?_⟩
  · intro h0
    rw [h0] at hne
    simp at hne
  · intro hsp
    exact (mem_splitOnChar (pyStrip_subset hsp) hphrase).2 rfl
  · intro x hx
    have h1 : x ∈ pyStrip line := (mem_splitOnChar (pyStrip_subset hx) hphrase).1
    exact (mem_pySplitlines (pyStrip_subset h1) hline).2

/-- The flattening stage is idempotent: its output splits back into exactly
its own chunks. -/
theorem flattenText_idem (t : List Char) :
    flattenText (flattenText t) = flattenText t := by
  have hprops : ∀ c ∈ (flattenChunks t).filter (fun c => ¬c.isEmpty),
      c ≠ [] ∧ pyStrip c = c ∧ ' ' ∉ c ∧ ∀ x ∈ c, isLineBoundary x = false :=
    fun c hc => flatten_chunk_props hc
  conv_lhs => rw [show flattenText t =
    joinNl ((flattenChunks t).filter (fun c => ¬c.isEmpty)) from rfl]
  rw [flattenText, flattenChunks]
  rw [pySplitlines_joinNl _ (fun c hc => ⟨(hprops c hc).1, (hprops c hc).2.2.2⟩)]
  rw [map_eq_self_of _ _ (fun c hc => (hprops c hc).2.1)]
  rw [flatMap_eq_self_of _ _ (fun c hc => by
    rw [splitOnChar_no_sep (hprops c hc).2.2.1]
    simp only [List.map_cons, List.map_nil, (hprops c hc).2.1])]
  rw [List.filter_eq_self.mpr (fun c hc => by
    simp only [decide_eq_true_eq]
    intro hemp
    exact (hprops c hc).1 (List.isEmpty_iff.mp hemp))]
  rfl

/-- The markup scanner is the identity on text free of `<` and `&`. -/
theorem getTextGo_id {l : List Char} (h : ∀ x ∈ l, x ≠ '<' ∧ x ≠ '&') :
    ∀ f : Nat, l.length ≤ f → getTextGo f l = l := by
  induction l with
  | nil =>
    intro f _
    cases f <;> rfl
  | cons x xs ih =>
    intro f hf
    cases f with
    | zero => simp at hf
    | succ g =>
      rw [getTextGo, if_neg (h x (by simp)).1, if_neg (h x (by simp)).2,
        ih (fun y hy => h y (List.mem_cons_of_mem _ hy)) g
          (by simp only [List.length_cons] at hf; omega)]


/-- Preprocessing is idempotent whenever its output contains no
markup-significant character. -/
theorem preprocess_idem_of_clean (s : String)
    (h : ∀ x ∈ (_preprocess_content s).data, x ≠ '<' ∧ x ≠ '&') :
    _preprocess_content (_preprocess_content s) = _preprocess_content s := by
  have unf : ∀ t : String, _preprocess_content t = ⟨flattenText (getText t.data)⟩ :=
    fun _ => rfl
  have hdata : (_preprocess_content s).data = flattenText (getText s.data) := by
    rw [unf s]
  rw [unf (_preprocess_content s)]
  rw [hdata] at h
  apply String.ext
  rw [hdata]
  rw [show getText (flattenText (getText s.data)) =
    getTextGo (flattenText (getText s.data)).length (flattenText (getText s.data)) from rfl]
  rw [getTextGo_id h _ le_rfl]
  rw [flattenText_idem]

/-! ## Claim theorems -/

/-- C1: the "could not extract" branch of `_extract_info` is dead for
completions that contain `'['` but no closing `']'`.  Because `json_end` is
`rfind(']') + 1`, a missing `']'` gives `0`, not `-1`, so the guard
`json_start != -1 and json_end != -1` only fails when `'['` is absent: a
completion with a `'['` and no bracket pair is routed to the
"Invalid JSON data" diagnostic for the empty slice instead of the fixed
"could not extract" message, which is reached only when `'['` itself is
missing. -/
theorem C1_dead_bracket_check :
    _extract_info (fun _ => "[x") ⟨some "u", some "c", some "p"⟩ "query" =
      some (diagOf "") ∧
    _extract_info (fun _ => "ab] cd[ef") ⟨some "u", some "c", some "p"⟩ "query" =
      some (diagOf "") ∧
    _extract_info (fun _ => "no brackets") ⟨some "u", some "c", some "p"⟩ "query" =
      some noExtractMsg ∧
    diagOf "" ≠ noExtractMsg :=
  ⟨rfl, rfl, rfl, by decide⟩

/-- Claim C2, counterexample: a failing fetch is not free of partial update.
`current_url` is assigned before the network call, so after a raised fetch
it already holds the new URL while the two content fields keep their old
values. -/
theorem C2_cex :
    (fetch_url (fun _ => none) ⟨some "http://old", some "body", some "text"⟩
        "http://new").1.current_url = some "http://new" ∧
    some "http://new" ≠ some "http://old" :=
  ⟨rfl, by decide⟩

/-- Claim C2 (amended): a successful fetch updates all three session fields
together and returns the acknowledgment naming the URL; a failing fetch
propagates the exception and leaves the two content fields at their
pre-call values, but `current_url` is already overwritten with the
attempted URL. -/
theorem C2_fetch_state (ffetch : String → Option String) (st : WebExtractor)
    (url : String) :
    (∀ body, ffetch url = some body →
      fetch_url ffetch st url =
        (⟨some url, some body, some (_preprocess_content body)⟩,
          some (ackMsg url))) ∧
    (ffetch url = none →
      fetch_url ffetch st url =
        (⟨some url, st.current_content, st.preprocessed_content⟩, none)) := by
  constructor
  · intro body hb
    simp [fetch_url, hb]
  · intro hb
    simp [fetch_url, hb]

theorem C2_fetch_state_witness :
    fetch_url (fun _ => some "hi") ⟨none, none, none⟩ "u" =
      (⟨some "u", some "hi", some (_preprocess_content "hi")⟩, some (ackMsg "u")) ∧
    fetch_url (fun _ => none) ⟨some "a", some "b", some "c"⟩ "u" =
      (⟨some "u", some "b", some "c"⟩, none) :=
  ⟨(C2_fetch_state (fun _ => some "hi") ⟨none, none, none⟩ "u").1 "hi" rfl,
   (C2_fetch_state (fun _ => none) ⟨some "a", some "b", some "c"⟩ "u").2 rfl⟩

/-- Claim C3, counterexample: the plain-text formatter produces no
diagnostic on parse failure — its `except` arm returns the offending input
unchanged, not the truncated "Invalid JSON data" string. -/
theorem C3_cex :
    Json.parse "hello" = none ∧
    _format_as_text "hello" = some "hello" ∧
    _format_as_text "hello" ≠ some (diagOf "hello") :=
  ⟨rfl, rfl, by decide⟩

/-- Claim C3 (amended): on an input that fails to parse as JSON, the JSON
and CSV formatters return the diagnostic embedding the first 500 characters
of the offending input, and no formatter raises the parse error further;
the plain-text formatter, however, returns the raw input unchanged rather
than a diagnostic. -/
theorem C3_formatter_on_bad_json (data : String) (h : Json.parse data = none) :
    _format_as_json data = diagOf data ∧
    _format_as_csv data = some (diagOf data) ∧
    _format_as_text data = some data := by
  refine ⟨?_, ?_, ?_⟩ <;>
    simp [_format_as_json, _format_as_csv, _format_as_text, h]

theorem C3_formatter_on_bad_json_witness :
    Json.parse "oops(" = none ∧
    _format_as_json "oops(" = diagOf "oops(" ∧
    _format_as_csv "oops(" = some (diagOf "oops(") ∧
    _format_as_text "oops(" = some "oops(" :=
  ⟨rfl, (C3_formatter_on_bad_json "oops(" rfl).1,
    (C3_formatter_on_bad_json "oops(" rfl).2.1,
    (C3_formatter_on_bad_json "oops(" rfl).2.2⟩

/-- Claim C4, counterexample: preprocessing is not idempotent on every
input — HTML entity decoding reapplies on the output, so "x&amp;amp;y"
preprocesses to "x&amp;y", which preprocesses again to "x&y". -/
theorem C4_cex :
    _preprocess_content "x&amp;amp;y" = "x&amp;y" ∧
    _preprocess_content (_preprocess_content "x&amp;amp;y") = "x&y" ∧
    _preprocess_content (_preprocess_content "x&amp;amp;y") ≠
      _preprocess_content "x&amp;amp;y" :=
  ⟨rfl, rfl, by decide⟩

/-- Claim C4 (amended): preprocessing is idempotent on every input whose
preprocessed output is free of markup metacharacters (contains no `<` and
no `&`); it is not idempotent in general, since entity decoding reapplies
to the output. -/
theorem C4_preprocess_idem (s : String)
    (h : ∀ x ∈ (_preprocess_content s).data, x ≠ '<' ∧ x ≠ '&') :
    _preprocess_content (_preprocess_content s) = _preprocess_content s :=
  preprocess_idem_of_clean s h

theorem C4_preprocess_idem_witness :
    _preprocess_content (_preprocess_content "<p>Hello   brave world</p>") =
      _preprocess_content "<p>Hello   brave world</p>" :=
  C4_preprocess_idem "<p>Hello   brave world</p>" (by decide)

/-- Claim C5: any input whose lowercasing starts with "http" is routed to
the fetch path, whatever the prior session state; on a successful fetch the
session is updated and the acknowledgment naming the URL is returned. -/
theorem C5_router_http (ffetch : String → Option String)
    (model : String → String) (st : WebExtractor) (input : String)
    (h : "http".data.isPrefixOf (pyLower input.data) = true) :
    process_query ffetch model st input = fetch_url ffetch st input ∧
    ∀ body, ffetch input = some body →
      process_query ffetch model st input =
        (⟨some input, some body, some (_preprocess_content body)⟩,
          some (ackMsg input)) := by
  have h1 : process_query ffetch model st input = fetch_url ffetch st input := by
    simp [process_query, h]
  refine ⟨h1, fun body hb => ?_⟩
  rw [h1]
  simp [fetch_url, hb]

theorem C5_router_http_witness :
    process_query (fun _ => some "<p>hi</p>") (fun _ => "")
      ⟨none, none, none⟩ "HTTP://example.com" =
      (⟨some "HTTP://example.com", some "<p>hi</p>",
        some (_preprocess_content "<p>hi</p>")⟩,
        some (ackMsg "HTTP://example.com")) :=
  (C5_router_http (fun _ => some "<p>hi</p>") (fun _ => "")
    ⟨none, none, none⟩ "HTTP://example.com" (by decide)).2 "<p>hi</p>" rfl

/-- Claim C6: any input not starting with "http" (case-insensitively),
asked while the session holds no page content, yields exactly the fixed
"Please provide a URL first before asking for information." message,
whatever the input says. -/
theorem C6_url_first (ffetch : String → Option String)
    (model : String → String) (st : WebExtractor) (input : String)
    (hin : "http".data.isPrefixOf (pyLower input.data) = false)
    (hst : st.current_content = none) :
    process_query ffetch model st input = (st, some urlFirstMsg) := by
  simp [process_query, hin, hst, optStrFalsy]

theorem C6_url_first_witness :
    process_query (fun _ => none) (fun _ => "") ⟨none, none, none⟩
      "what is on the page?" =
      (⟨none, none, none⟩, some urlFirstMsg) :=
  C6_url_first (fun _ => none) (fun _ => "") ⟨none, none, none⟩
    "what is on the page?" (by decide) rfl

/-- Claim C7: JSON-mode formatting of a structured result (an array of
objects with string keys and scalar values) wraps the indent-2 dump in a
fenced block, and re-parsing that dump returns the very same structured
value, so the keys of each record and the order of the rows are preserved
(equality of ordered association lists). -/
theorem C7_json_roundtrip (rs : List Json) (hrs : isStructured rs = true) :
    _format_as_json (Json.dumps (.arr rs)) =
      "```json\n" ++ Json.dumpsIndent (.arr rs) ++ "\n```" ∧
    Json.parse (Json.dumpsIndent (.arr rs)) = some (.arr rs) := by
  constructor
  · rw [_format_as_json, parse_dumps_structured rs hrs]
  · exact parse_dumpsIndent_structured rs hrs

theorem C7_json_roundtrip_witness :
    _format_as_json (Json.dumps (.arr [.obj [("name", .str "x"), ("val", .num 1)],
        .obj [("name", .str "y"), ("val", .num 2)]])) =
      "```json\n" ++ Json.dumpsIndent (.arr [.obj [("name", .str "x"), ("val", .num 1)],
        .obj [("name", .str "y"), ("val", .num 2)]]) ++ "\n```" ∧
    Json.parse (Json.dumpsIndent (.arr [.obj [("name", .str "x"), ("val", .num 1)],
        .obj [("name", .str "y"), ("val", .num 2)]])) =
      some (.arr [.obj [("name", .str "x"), ("val", .num 1)],
        .obj [("name", .str "y"), ("val", .num 2)]]) :=
  C7_json_roundtrip
    [.obj [("name", .str "x"), ("val", .num 1)],
     .obj [("name", .str "y"), ("val", .num 2)]] (by decide)

/-- Claim C8: CSV-mode formatting of the empty structured result returns
exactly the fixed "No data to convert to CSV." string — both for the dump
of the empty array and for the literal "[]". -/
theorem C8_csv_empty :
    _format_as_csv (Json.dumps (.arr [])) = some "No data to convert to CSV." ∧
    _format_as_csv "[]" = some "No data to convert to CSV." :=
  ⟨rfl, rfl⟩

/-- Claim C9: with preprocessed content present and non-empty,
`_extract_info` consults the model on the fixed-template prompt; that
prompt depends only on the first 500 characters of the preprocessed
content (the truncation is unconditional), and contains that prefix and
the literal query verbatim between the fixed template pieces. -/
theorem C9_prompt_shape (model : String → String) (st : WebExtractor)
    (p query : String) (hst : st.preprocessed_content = some p) (hp : p ≠ "") :
    _extract_info model st query =
      processResponse (model (promptOf p query)) query ∧
    promptOf p query = promptOf ⟨p.data.take 500⟩ query ∧
    ∃ pre mid suf : List Char,
      (promptOf p query).data =
        pre ++ p.data.take 500 ++ (mid ++ (query.data ++ suf)) := by
  refine ⟨?_, ?_, ?_⟩
  · rw [_extract_info, hst]
    simp [optStrFalsy, String.isEmpty_iff, hp]
  · rw [promptOf, promptOf]
    have hx : (⟨p.data.take 500⟩ : String).data.take 500 = p.data.take 500 := by
      rw [show (⟨p.data.take 500⟩ : String).data = p.data.take 500 from rfl]
      rw [List.take_take, Nat.min_self]
    rw [hx]
  · refine ⟨("Based on the following webpage content and the user\x27s request, extract the relevant information.\n        Always present the data as a JSON array of objects.\n        Webpage content: ").data,
      ("...\n        Human: ").data, ("\n        AI:").data, ?_⟩
    rw [promptOf]
    rw [String.data_append, String.data_append, String.data_append,
      String.data_append]
    rw [show (⟨p.data.take 500⟩ : String).data = p.data.take 500 from rfl]
    simp only [List.append_assoc]

theorem C9_prompt_shape_witness :
    (_extract_info (fun _ => "[]") ⟨some "u", some "c", some "page text"⟩ "q" =
      processResponse ((fun _ => "[]") (promptOf "page text" "q")) "q") ∧
    promptOf "page text" "q" = promptOf ⟨"page text".data.take 500⟩ "q" ∧
    ∃ pre mid suf : List Char,
      (promptOf "page text" "q").data =
        pre ++ "page text".data.take 500 ++ (mid ++ ("q".data ++ suf)) :=
  C9_prompt_shape (fun _ => "[]") ⟨some "u", some "c", some "page text"⟩
    "page text" "q" rfl (by decide)

/-- Claim C10: page-loaded status is string truthiness, not fetch history.
After a successful fetch whose body preprocesses to the empty string (in
particular an empty body), every subsequent non-URL query is answered with
the fixed "Please provide a URL first" message, exactly as if no page had
ever been fetched. -/
theorem C10_truthy_empty_page (ffetch : String → Option String)
    (model : String → String) (st : WebExtractor) (url q body : String)
    (hb : ffetch url = some body) (hpp : _preprocess_content body = "")
    (hq : "http".data.isPrefixOf (pyLower q.data) = false) :
    process_query ffetch model (fetch_url ffetch st url).1 q =
      ((fetch_url ffetch st url).1, some urlFirstMsg) := by
  have hpost : (fetch_url ffetch st url).1 =
      ⟨some url, some body, some (_preprocess_content body)⟩ := by
    simp [fetch_url, hb]
  rw [hpost]
  have hemp : optStrFalsy (some "") = true := rfl
  by_cases hbody : body = ""
  · subst hbody
    simp [process_query, hq, hemp]
  · have h1 : body.isEmpty ≠ true := fun hc =>
      hbody ((String.isEmpty_iff body).mp hc)
    have hcc : optStrFalsy (some body) = false := by
      show body.isEmpty = false
      exact Bool.eq_false_iff.mpr h1
    simp [process_query, hq, hcc, _extract_info, hpp, hemp]

theorem C10_truthy_empty_page_witness :
    process_query (fun _ => some "") (fun _ => "")
      ((fetch_url (fun _ => some "") ⟨none, none, none⟩ "http://e.com").1)
      "summarize the page" =
      ((fetch_url (fun _ => some "") ⟨none, none, none⟩ "http://e.com").1,
        some urlFirstMsg) :=
  C10_truthy_empty_page (fun _ => some "") (fun _ => "") ⟨none, none, none⟩
    "http://e.com" "summarize the page" "" rfl rfl (by decide)
